import Mathlib

/-! DTTPGParameters: composite-key indexed calibration store.

Shallow embedding of `CondFormats/DTObjects/src/DTTPGParameters.cc`.

* C++ `int` keys, counts and slots are `Int`; the one `int` product of two caller-supplied
  values (`cl * clock()` in `totalTime`) is reduced to 32 bits by `wrapInt32`.
  `std::vector` sizes are taken to fit an `int`, so `ientry = dataList.size()` keeps its value.
* C++ `float` is an arbitrary carrier `F` with a zero, `+`, `*`, `/` and a conversion from
  `Int`; no law of arithmetic is assumed, so every statement proved for all `F` holds for
  IEEE-754 single precision in particular.
* `dataList[ientry]` outside the vector is undefined behaviour: `get`, `set` and `totalTime`
  return `none` there.
-/

set_option linter.unusedVariables false

/-- Modelled from the spec: the unit selector `DTTimeUnits::type`, whose header is not among
the sources; the spec gives the two units raw-count and nanosecond. -/
inductive DTTimeUnits where
  | counts
  | ns
  deriving DecidableEq

/-- Value bound to key `k` in one level of the index (first match). -/
def levelFind {β : Type} (k : Int) : List (Int × β) → Option β
  | [] => none
  | (k', b) :: rest => if k' = k then some b else levelFind k rest

/-- Bind key `k` to `b` in one level of the index, replacing an earlier binding. -/
def levelInsert {β : Type} (k : Int) (b : β) : List (Int × β) → List (Int × β)
  | [] => [(k, b)]
  | (k', b') :: rest => if k' = k then (k, b) :: rest else (k', b') :: levelInsert k b rest

/-- Modelled from the spec: `DTBufferTree<int,int>` (the spec's PathIndex), whose header is not
among the sources. Nested levels, one per path component: a node holds the slot of the path
ending there, if one was inserted, and a mapping from the next component to the next level. -/
inductive DTBufferTree where
  | node (content : Option Int) (children : List (Int × DTBufferTree))

/-- Modelled from the spec: a freshly created `DTBufferTree`, holding no association. -/
def DTBufferTree.empty : DTBufferTree := DTBufferTree.node none []

/-- Modelled from the spec: `DTBufferTree::clear`, discards all associations. -/
def DTBufferTree.clear (_self : DTBufferTree) : DTBufferTree := DTBufferTree.empty

/-- Modelled from the spec: `DTBufferTree::find`, slot of the path or NotFound (`none`);
never mutates, compares paths by value. -/
def DTBufferTree.find : List Int → DTBufferTree → Option Int
  | [], DTBufferTree.node content _ => content
  | k :: rest, DTBufferTree.node _ children =>
    match levelFind k children with
    | some sub => DTBufferTree.find rest sub
    | none => none

/-- Modelled from the spec: `DTBufferTree::insert`, associates the path with the slot,
overwriting an earlier association of the same path (last write wins). -/
def DTBufferTree.insert : List Int → Int → DTBufferTree → DTBufferTree
  | [], slot, DTBufferTree.node _ children => DTBufferTree.node (some slot) children
  | k :: rest, slot, DTBufferTree.node content children =>
    DTBufferTree.node content
      (levelInsert k
        (DTBufferTree.insert rest slot ((levelFind k children).getD DTBufferTree.empty))
        children)

/-- Modelled from the spec: the `int` status returned by `DTBufferTree::find`. The source tests
`!searchStatus` for a hit, so a hit is `0`; a miss is a non-zero code, here `1`. -/
def searchStatus : Option Int → Int
  | some _ => 0
  | none => 1

/-- The key of a record: `DTTPGParametersId`. -/
structure DTTPGParametersId where
  wheelId : Int
  stationId : Int
  sectorId : Int
  deriving DecidableEq

/-- The record: `DTTPGParametersData`. -/
structure DTTPGParametersData (F : Type) where
  nClock : Int
  tPhase : F

/-- The store: members of `DTTPGParameters`; `dBuf` is owned by the object (allocated by its
constructor, never shared), so it is held by value. -/
structure DTTPGParameters (F : Type) where
  dataVersion : String
  nsPerCount : F
  clockLength : Int
  dataList : List (DTTPGParametersId × DTTPGParametersData F)
  dBuf : DTBufferTree

/-- The path `chanKey` built from a key: wheel, station, sector. -/
def chanKey (wheelId stationId sectorId : Int) : List Int :=
  [wheelId, stationId, sectorId]

/-- The path of a stored key, as `initialize` builds it. -/
def DTTPGParametersId.path (chan : DTTPGParametersId) : List Int :=
  chanKey chan.wheelId chan.stationId chan.sectorId

/-- Element `v[i]` for an `int` index: `none` outside the vector (undefined behaviour in C++). -/
def vectorAt {α : Type} (v : List α) (i : Int) : Option α :=
  if 0 ≤ i then v[i.toNat]? else none

/-- Reduction of an integer to the 32-bit two-complement range of `int`. -/
def wrapInt32 (x : Int) : Int :=
  (x + 2147483648) % 4294967296 - 2147483648

section Store

variable {F : Type}

/-- Constructor `DTTPGParameters::DTTPGParameters()`. -/
def DTTPGParameters.new [Div F] [IntCast F] : DTTPGParameters F :=
  { dataVersion := " "
    nsPerCount := ((25 : Int) : F) / ((32 : Int) : F)
    clockLength := 32
    dataList := []
    dBuf := DTBufferTree.empty }

/-- Constructor `DTTPGParameters::DTTPGParameters( const std::string& version )`. -/
def DTTPGParameters.newVersion [Div F] [IntCast F] (version : String) : DTTPGParameters F :=
  { dataVersion := version
    nsPerCount := ((25 : Int) : F) / ((32 : Int) : F)
    clockLength := 32
    dataList := []
    dBuf := DTBufferTree.empty }

/-- Source `DTTPGParameters::get`: the result is `(searchStatus, nc, ph)`; the arguments `nc`, `ph`
are the values the output references held before the call. -/
def DTTPGParameters.get [Zero F] [Mul F] (self : DTTPGParameters F)
    (wheelId stationId sectorId : Int) (nc : Int) (ph : F) (unit : DTTimeUnits) :
    Option (Int × Int × F) :=
  let nc : Int := 0
  let ph : F := 0
  let found := self.dBuf.find (chanKey wheelId stationId sectorId)
  match found with
  | some ientry =>
    match vectorAt self.dataList ientry with
    | some entry =>
      let nc := entry.2.nClock
      let ph := entry.2.tPhase
      let ph := if unit = DTTimeUnits.ns then ph * self.nsPerCount else ph
      some (searchStatus found, nc, ph)
    | none => none
  | none => some (searchStatus found, nc, ph)

/-- Source `DTTPGParameters::clock`. -/
def DTTPGParameters.clock (self : DTTPGParameters F) : Int := self.clockLength

/-- Source `DTTPGParameters::unit`. -/
def DTTPGParameters.unit (self : DTTPGParameters F) : F := self.nsPerCount

/-- Source `DTTPGParameters::version`. -/
def DTTPGParameters.version (self : DTTPGParameters F) : String := self.dataVersion

/-- Source `DTTPGParameters::totalTime`; the product `cl * clock()` is an `int` product. -/
def DTTPGParameters.totalTime [Zero F] [Add F] [Mul F] [IntCast F] (self : DTTPGParameters F)
    (wheelId stationId sectorId : Int) (unit : DTTimeUnits) : Option F :=
  match self.get wheelId stationId sectorId 0 0 unit with
  | some (_, cl, ph) =>
    if unit = DTTimeUnits.ns then
      some (((wrapInt32 (cl * self.clock) : Int) : F) * self.nsPerCount + ph)
    else
      some (((wrapInt32 (cl * self.clock) : Int) : F) + ph)
  | none => none

/-- The loop of `DTTPGParameters::initialize`, from `entryNum` on (`entryMax` is the size of
`dataList`). -/
def initializeLoop (dataList : List (DTTPGParametersId × DTTPGParametersData F))
    (entryNum : Nat) (dBuf : DTBufferTree) : DTBufferTree :=
  if h : entryNum < dataList.length then
    let chan := (dataList.get ⟨entryNum, h⟩).1
    initializeLoop dataList (entryNum + 1)
      (dBuf.insert (chanKey chan.wheelId chan.stationId chan.sectorId) (entryNum : Int))
  else dBuf
termination_by dataList.length - entryNum

/-- Source `DTTPGParameters::initialize`: clear the index, then insert every entry of `dataList`. -/
def DTTPGParameters.initializeBuf (self : DTTPGParameters F) : DTTPGParameters F :=
  { self with dBuf := initializeLoop self.dataList 0 self.dBuf.clear }

/-- Source `DTTPGParameters::clear`. -/
def DTTPGParameters.clear (self : DTTPGParameters F) : DTTPGParameters F :=
  DTTPGParameters.initializeBuf { self with dataList := [] }

/-- Source `DTTPGParameters::set`: the result is the returned code and the store after the call.
The branch `!searchStatus` is the hit of `find`; both branches return, so the trailing
`return 99` of the source is never reached. -/
def DTTPGParameters.set [Div F] (self : DTTPGParameters F)
    (wheelId stationId sectorId : Int) (nc : Int) (ph : F) (unit : DTTimeUnits) :
    Option (Int × DTTPGParameters F) :=
  let ph := if unit = DTTimeUnits.ns then ph / self.nsPerCount else ph
  match self.dBuf.find (chanKey wheelId stationId sectorId) with
  | some ientry =>
    match vectorAt self.dataList ientry with
    | some entry =>
      some (-1, { self with
        dataList := self.dataList.set ientry.toNat (entry.1, { nClock := nc, tPhase := ph }) })
    | none => none
  | none =>
    let key : DTTPGParametersId :=
      { wheelId := wheelId, stationId := stationId, sectorId := sectorId }
    let data : DTTPGParametersData F := { nClock := nc, tPhase := ph }
    let ientry : Int := (self.dataList.length : Int)
    some (0, { self with
      dataList := self.dataList ++ [(key, data)]
      dBuf := self.dBuf.insert (chanKey wheelId stationId sectorId) ientry })

/-- Source `DTTPGParameters::setClock`. -/
def DTTPGParameters.setClock (self : DTTPGParameters F) (clock : Int) : DTTPGParameters F :=
  { self with clockLength := clock }

/-- Source `DTTPGParameters::setUnit`. -/
def DTTPGParameters.setUnit (self : DTTPGParameters F) (unit : F) : DTTPGParameters F :=
  { self with nsPerCount := unit }

/-- Assignment through the reference returned by the non-const `version()`. -/
def DTTPGParameters.setVersion (self : DTTPGParameters F) (version : String) :
    DTTPGParameters F :=
  { self with dataVersion := version }

/-- Source `DTTPGParameters::operator=`; `thisAddr` and `rhsAddr` are the addresses compared by
`this != &rhs`. -/
def DTTPGParameters.assign (self rhs : DTTPGParameters F) (thisAddr rhsAddr : Nat) :
    DTTPGParameters F :=
  if thisAddr ≠ rhsAddr then
    DTTPGParameters.initializeBuf
      { self with
        dataVersion := rhs.dataVersion
        nsPerCount := rhs.nsPerCount
        clockLength := rhs.clockLength
        dataList := rhs.dataList }
  else self

/-- Stores obtained from a constructed store by `set`, `clear` and copy-assignment from
another such store; the scalar mutators `setClock`, `setUnit` and the mutable `version()`
are allowed as well. -/
inductive Reachable [Div F] [IntCast F] : DTTPGParameters F → Prop
  | new : Reachable DTTPGParameters.new
  | newVersion (version : String) : Reachable (DTTPGParameters.newVersion version)
  | set {s s' : DTTPGParameters F} (wheelId stationId sectorId nc : Int) (ph : F)
      (unit : DTTimeUnits) (code : Int) :
      Reachable s → s.set wheelId stationId sectorId nc ph unit = some (code, s') →
      Reachable s'
  | clear {s : DTTPGParameters F} : Reachable s → Reachable s.clear
  | assign {s rhs : DTTPGParameters F} (thisAddr rhsAddr : Nat) :
      Reachable s → Reachable rhs → Reachable (s.assign rhs thisAddr rhsAddr)
  | setClock {s : DTTPGParameters F} (clock : Int) : Reachable s → Reachable (s.setClock clock)
  | setUnit {s : DTTPGParameters F} (unit : F) : Reachable s → Reachable (s.setUnit unit)
  | setVersion {s : DTTPGParameters F} (version : String) :
      Reachable s → Reachable (s.setVersion version)

/-- The keys of the record list, in list order. -/
def DTTPGParameters.keys (self : DTTPGParameters F) : List DTTPGParametersId :=
  self.dataList.map (fun e => e.1)

/-- Index and record list agree: every list position is found under its key, and every path
the index resolves is the key path of the list position it yields. -/
def IndexConsistent (s : DTTPGParameters F) : Prop :=
  (∀ (i : Nat) (k : DTTPGParametersId), s.keys[i]? = some k →
      s.dBuf.find k.path = some (i : Int)) ∧
  (∀ (path : List Int) (slot : Int), s.dBuf.find path = some slot →
      ∃ (i : Nat) (k : DTTPGParametersId), slot = (i : Int) ∧ s.keys[i]? = some k ∧ k.path = path)

/-- Reachable stores in which the key `key` has not been set since construction or since the
last `clear` or copy-assignment that removed it: every `set` since then was on another key,
and an assignment counts when its right-hand side is such a store for `key` itself. -/
inductive ReachableUnset [Div F] [IntCast F] (key : DTTPGParametersId) :
    DTTPGParameters F → Prop
  | new : ReachableUnset key DTTPGParameters.new
  | newVersion (version : String) : ReachableUnset key (DTTPGParameters.newVersion version)
  | set {s s' : DTTPGParameters F} (wheelId stationId sectorId nc : Int) (ph : F)
      (unit : DTTimeUnits) (code : Int) :
      ReachableUnset key s →
      ({ wheelId := wheelId, stationId := stationId, sectorId := sectorId } : DTTPGParametersId)
        ≠ key →
      s.set wheelId stationId sectorId nc ph unit = some (code, s') →
      ReachableUnset key s'
  | clear {s : DTTPGParameters F} : Reachable s → ReachableUnset key s.clear
  | assign {s rhs : DTTPGParameters F} (thisAddr rhsAddr : Nat) :
      Reachable s → ReachableUnset key rhs → (thisAddr = rhsAddr → s = rhs) →
      ReachableUnset key (s.assign rhs thisAddr rhsAddr)
  | setClock {s : DTTPGParameters F} (clock : Int) :
      ReachableUnset key s → ReachableUnset key (s.setClock clock)
  | setUnit {s : DTTPGParameters F} (unit : F) :
      ReachableUnset key s → ReachableUnset key (s.setUnit unit)
  | setVersion {s : DTTPGParameters F} (version : String) :
      ReachableUnset key s → ReachableUnset key (s.setVersion version)

/-- A sequence of `set` calls in raw counts, one per element of `calls`, in order: the codes
returned and the store after the last call. -/
def setAll [Div F] (s : DTTPGParameters F) :
    List (DTTPGParametersId × DTTPGParametersData F) → Option (List Int × DTTPGParameters F)
  | [] => some ([], s)
  | call :: rest =>
    match s.set call.1.wheelId call.1.stationId call.1.sectorId call.2.nClock call.2.tPhase
        DTTimeUnits.counts with
    | some (code, s') =>
      match setAll s' rest with
      | some (codes, s'') => some (code :: codes, s'')
      | none => none
    | none => none

/-- The stores alive in a program, each at its address (its position in the list). -/
abbrev Memory (F : Type) := List (DTTPGParameters F)

/-- The call `*thisAddr = *rhsAddr` of `operator=` on two live stores. -/
def Memory.assign (m : Memory F) (thisAddr rhsAddr : Nat) : Option (Memory F) :=
  match m[thisAddr]?, m[rhsAddr]? with
  | some self, some rhs => some (List.set m thisAddr (self.assign rhs thisAddr rhsAddr))
  | _, _ => none

/-- The call of `set` on the store at `addr`. -/
def Memory.set [Div F] (m : Memory F) (addr : Nat) (wheelId stationId sectorId : Int)
    (nc : Int) (ph : F) (unit : DTTimeUnits) : Option (Int × Memory F) :=
  match m[addr]? with
  | some self =>
    match self.set wheelId stationId sectorId nc ph unit with
    | some (code, self') => some (code, List.set m addr self')
    | none => none
  | none => none

/-- The call of `clear` on the store at `addr`. -/
def Memory.clear (m : Memory F) (addr : Nat) : Option (Memory F) :=
  match m[addr]? with
  | some self => some (List.set m addr self.clear)
  | none => none

end Store

/-! ## A concrete carrier for examples -/

/-- Single-precision values as far as the examples below need them: a finite value, held
exactly, or NaN. NaN propagates through every operation as in IEEE 754. Rounding and the
infinities are left out (a division by zero gives NaN here), so the type is used only at
inputs where every IEEE result is finite and exact, or is NaN. -/
inductive Flt where
  | finite (q : ℚ)
  | nan
  deriving DecidableEq

instance : Zero Flt := ⟨Flt.finite 0⟩

instance : IntCast Flt := ⟨fun n => Flt.finite (n : ℚ)⟩

instance : Add Flt :=
  ⟨fun a b =>
    match a, b with
    | Flt.finite x, Flt.finite y => Flt.finite (x + y)
    | _, _ => Flt.nan⟩

instance : Mul Flt :=
  ⟨fun a b =>
    match a, b with
    | Flt.finite x, Flt.finite y => Flt.finite (x * y)
    | _, _ => Flt.nan⟩

instance : Div Flt :=
  ⟨fun a b =>
    match a, b with
    | Flt.finite x, Flt.finite y => if y = 0 then Flt.nan else Flt.finite (x / y)
    | _, _ => Flt.nan⟩

/-- The store after `set(1, 2, 3, 4, 5.0, counts)` on a default-constructed store. -/
def sampleStore : DTTPGParameters Flt :=
  { dataVersion := " "
    nsPerCount := ((25 : Int) : Flt) / ((32 : Int) : Flt)
    clockLength := 32
    dataList := [(({ wheelId := 1, stationId := 2, sectorId := 3 } : DTTPGParametersId),
      ({ nClock := 4, tPhase := Flt.finite 5 } : DTTPGParametersData Flt))]
    dBuf := DTBufferTree.empty.insert (chanKey 1 2 3) 0 }

/-- The store after `set(3, 2, 1, 6, 7.0, counts)` on a store constructed with version "v2". -/
def sampleStore2 : DTTPGParameters Flt :=
  { dataVersion := "v2"
    nsPerCount := ((25 : Int) : Flt) / ((32 : Int) : Flt)
    clockLength := 32
    dataList := [(({ wheelId := 3, stationId := 2, sectorId := 1 } : DTTPGParametersId),
      ({ nClock := 6, tPhase := Flt.finite 7 } : DTTPGParametersData Flt))]
    dBuf := DTBufferTree.empty.insert (chanKey 3 2 1) 0 }

/-- The store after `set(1, 2, 3, 1073741824, 5.0, counts)` on a default-constructed store:
the count is 2^30, the clock length the default 32. -/
def overflowStore : DTTPGParameters Flt :=
  { dataVersion := " "
    nsPerCount := ((25 : Int) : Flt) / ((32 : Int) : Flt)
    clockLength := 32
    dataList := [(({ wheelId := 1, stationId := 2, sectorId := 3 } : DTTPGParametersId),
      ({ nClock := 1073741824, tPhase := Flt.finite 5 } : DTTPGParametersData Flt))]
    dBuf := DTBufferTree.empty.insert (chanKey 1 2 3) 0 }

/-- The default-constructed store after `setUnit(NaN)`. -/
def nanStore : DTTPGParameters Flt :=
  { dataVersion := " "
    nsPerCount := Flt.nan
    clockLength := 32
    dataList := []
    dBuf := DTBufferTree.empty }

/-- The calls `dBuf->insert( path, slot )` made by the loop of `initialize` from `entryNum`
on, in the order made: the loop of `initializeLoop` with the calls recorded. -/
def initializeInserts {F : Type} (dataList : List (DTTPGParametersId × DTTPGParametersData F))
    (entryNum : Nat) : List (List Int × Int) :=
  if h : entryNum < dataList.length then
    let chan := (dataList.get ⟨entryNum, h⟩).1
    (chanKey chan.wheelId chan.stationId chan.sectorId, (entryNum : Int))
      :: initializeInserts dataList (entryNum + 1)
  else []
termination_by dataList.length - entryNum

/-- The sequence an iteration from `begin()` to `end()` visits: both are iterators of
`dataList`. -/
def DTTPGParameters.beginToEnd {F : Type} (self : DTTPGParameters F) :
    List (DTTPGParametersId × DTTPGParametersData F) :=
  self.dataList

/-- The arguments of one call of `set`. -/
structure SetCall (F : Type) where
  wheelId : Int
  stationId : Int
  sectorId : Int
  nc : Int
  ph : F
  unit : DTTimeUnits

/-- The key a call of `set` addresses. -/
def SetCall.key {F : Type} (c : SetCall F) : DTTPGParametersId :=
  { wheelId := c.wheelId, stationId := c.stationId, sectorId := c.sectorId }

/-- The record a call of `set` stores: its count and its phase in raw counts. -/
def SetCall.stored {F : Type} [Div F] (c : SetCall F) (nsPerCount : F) : DTTPGParametersData F :=
  { nClock := c.nc, tPhase := if c.unit = DTTimeUnits.ns then c.ph / nsPerCount else c.ph }

/-- A sequence of `set` calls, in order: the store after the last call. -/
def setCalls {F : Type} [Div F] (s : DTTPGParameters F) :
    List (SetCall F) → Option (DTTPGParameters F)
  | [] => some s
  | c :: rest =>
    match s.set c.wheelId c.stationId c.sectorId c.nc c.ph c.unit with
    | some (_, s') => setCalls s' rest
    | none => none

/-- The record list `L` is the first-insertion order of the calls `P`: it holds exactly the
keys of the calls, a key that stands before another in `L` was first set before it, and
each record is the one stored by the last call on its key. -/
def FirstInsertionOrder {F : Type} [Div F] (nsPerCount : F) (P : List (SetCall F))
    (L : List (DTTPGParametersId × DTTPGParametersData F)) : Prop :=
  (∀ k : DTTPGParametersId, k ∈ L.map (fun e => e.1) ↔ k ∈ P.map SetCall.key) ∧
  (∀ (i j : Nat) (k1 k2 : DTTPGParametersId),
    (L.map (fun e => e.1))[i]? = some k1 → (L.map (fun e => e.1))[j]? = some k2 → i < j →
    List.indexOf k1 (P.map SetCall.key) < List.indexOf k2 (P.map SetCall.key)) ∧
  (∀ (i : Nat) (e : DTTPGParametersId × DTTPGParametersData F), L[i]? = some e →
    ∃ (j : Nat) (c : SetCall F), P[j]? = some c ∧ c.key = e.1 ∧ e.2 = c.stored nsPerCount ∧
      ∀ (j' : Nat) (c' : SetCall F), j < j' → P[j']? = some c' → c'.key ≠ e.1)

/-- The store after `set(1, 2, 3, 4, 5.0, counts)`, `set(3, 2, 1, 6, 7.0, counts)` and a second
`set` on the first key, `set(1, 2, 3, 8, 9.0, counts)`, on a default-constructed store. -/
def twoKeyStore : DTTPGParameters Flt :=
  { dataVersion := " "
    nsPerCount := ((25 : Int) : Flt) / ((32 : Int) : Flt)
    clockLength := 32
    dataList :=
      [(({ wheelId := 1, stationId := 2, sectorId := 3 } : DTTPGParametersId),
        ({ nClock := 8, tPhase := Flt.finite 9 } : DTTPGParametersData Flt)),
       (({ wheelId := 3, stationId := 2, sectorId := 1 } : DTTPGParametersId),
        ({ nClock := 6, tPhase := Flt.finite 7 } : DTTPGParametersData Flt))]
    dBuf := (DTBufferTree.empty.insert (chanKey 1 2 3) 0).insert (chanKey 3 2 1) 1 }

/-- The rational a finite value of `Flt` stands for (0 for NaN). -/
def Flt.value : Flt → ℚ
  | Flt.finite q => q
  | Flt.nan => 0

/-! ## The index -/

theorem levelFind_levelInsert_same {β : Type} (k : Int) (b : β) (l : List (Int × β)) :
    levelFind k (levelInsert k b l) = some b := by
  induction l with
  | nil => simp [levelInsert, levelFind]
  | cons hd tl ih =>
    obtain ⟨k', b'⟩ := hd
    by_cases h : k' = k
    · simp [levelInsert, levelFind, h]
    · simp [levelInsert, levelFind, h, ih]

theorem levelFind_levelInsert_other {β : Type} (k k' : Int) (b : β) (l : List (Int × β))
    (hne : k' ≠ k) : levelFind k' (levelInsert k b l) = levelFind k' l := by
  induction l with
  | nil => simp [levelInsert, levelFind, Ne.symm hne]
  | cons hd tl ih =>
    obtain ⟨k'', b''⟩ := hd
    by_cases h : k'' = k
    · subst h
      simp [levelInsert, levelFind, Ne.symm hne]
    · by_cases h2 : k'' = k'
      · subst h2
        simp [levelInsert, levelFind, h]
      · simp [levelInsert, levelFind, h, h2, ih]

theorem find_empty (path : List Int) : DTBufferTree.empty.find path = none := by
  cases path <;> simp [DTBufferTree.empty, DTBufferTree.find, levelFind]

theorem find_insert_same (path : List Int) (slot : Int) (t : DTBufferTree) :
    (t.insert path slot).find path = some slot := by
  induction path generalizing t with
  | nil => cases t; simp [DTBufferTree.insert, DTBufferTree.find]
  | cons k rest ih =>
    cases t with
    | node content children =>
      simp [DTBufferTree.insert, DTBufferTree.find, levelFind_levelInsert_same, ih]

theorem find_insert_other (path other : List Int) (slot : Int) (t : DTBufferTree)
    (hne : other ≠ path) : (t.insert path slot).find other = t.find other := by
  induction path generalizing t other with
  | nil =>
    cases t with
    | node content children =>
      cases other with
      | nil => exact absurd rfl hne
      | cons k rest => simp [DTBufferTree.insert, DTBufferTree.find]
  | cons k rest ih =>
    cases t with
    | node content children =>
      cases other with
      | nil => simp [DTBufferTree.insert, DTBufferTree.find]
      | cons k' rest' =>
        by_cases hk : k' = k
        · subst hk
          have hrest : rest' ≠ rest := fun h => hne (by rw [h])
          simp only [DTBufferTree.insert, DTBufferTree.find, levelFind_levelInsert_same]
          rw [ih rest' _ hrest]
          cases hc : levelFind k' children with
          | none => simp [find_empty]
          | some sub => simp
        · simp only [DTBufferTree.insert, DTBufferTree.find]
          rw [levelFind_levelInsert_other k k' _ children hk]

theorem path_injective (k k' : DTTPGParametersId) (h : k.path = k'.path) : k = k' := by
  cases k; cases k'
  simp [DTTPGParametersId.path, chanKey] at h
  simp [h]

/-! ## Rebuild of the index -/

theorem initializeLoop_done {F : Type} (l : List (DTTPGParametersId × DTTPGParametersData F))
    (n : Nat) (t : DTBufferTree) (h : ¬ n < l.length) : initializeLoop l n t = t := by
  rw [initializeLoop]
  simp [h]

theorem initializeLoop_step {F : Type} (l : List (DTTPGParametersId × DTTPGParametersData F))
    (n : Nat) (t : DTBufferTree) (h : n < l.length) :
    initializeLoop l n t
      = initializeLoop l (n + 1) (t.insert (l.get ⟨n, h⟩).1.path (n : Int)) := by
  rw [initializeLoop]
  simp [h, DTTPGParametersId.path]

/-- After the loop has run from `n` to the end, the index resolves exactly the key paths of the
list, each to the last position holding it; `hA`, `hB` say so for the positions below `n`. -/
theorem initializeLoop_spec {F : Type} (l : List (DTTPGParametersId × DTTPGParametersData F))
    (n : Nat) (t : DTBufferTree) (hn : n ≤ l.length)
    (hA : ∀ (q : List Int) (v : Int), t.find q = some v →
      ∃ (i : Nat) (k : DTTPGParametersId),
        v = (i : Int) ∧ i < n ∧ (l.map (fun e => e.1))[i]? = some k ∧ k.path = q)
    (hB : ∀ (i : Nat) (k : DTTPGParametersId), i < n → (l.map (fun e => e.1))[i]? = some k →
      (∀ (j : Nat) (k' : DTTPGParametersId), i < j → j < n →
        (l.map (fun e => e.1))[j]? = some k' → k'.path ≠ k.path) →
      t.find k.path = some (i : Int)) :
    (∀ (q : List Int) (v : Int), (initializeLoop l n t).find q = some v →
      ∃ (i : Nat) (k : DTTPGParametersId),
        v = (i : Int) ∧ (l.map (fun e => e.1))[i]? = some k ∧ k.path = q) ∧
    (∀ (i : Nat) (k : DTTPGParametersId), (l.map (fun e => e.1))[i]? = some k →
      (∀ (j : Nat) (k' : DTTPGParametersId), i < j →
        (l.map (fun e => e.1))[j]? = some k' → k'.path ≠ k.path) →
      (initializeLoop l n t).find k.path = some (i : Int)) := by
  generalize hm : l.length - n = m
  induction m generalizing n t with
  | zero =>
    have hlen : ¬ n < l.length := by omega
    rw [initializeLoop_done l n t hlen]
    refine ⟨?_, ?_⟩
    · intro q v hq
      obtain ⟨i, k, hv, _, hk, hp⟩ := hA q v hq
      exact ⟨i, k, hv, hk, hp⟩
    · intro i k hk hlast
      have hi : i < l.length := by
        have := (List.getElem?_eq_some_iff.mp hk).1
        simpa using this
      exact hB i k (by omega) hk (fun j k' hij _ hk' => hlast j k' hij hk')
  | succ m ih =>
    have hlt : n < l.length := by omega
    rw [initializeLoop_step l n t hlt]
    have hkn : (l.map (fun e => e.1))[n]? = some (l.get ⟨n, hlt⟩).1 := by
      simp [List.getElem?_map, List.getElem?_eq_getElem hlt]
    apply ih (n + 1) _ (by omega)
    · intro q v hq
      by_cases hqp : q = (l.get ⟨n, hlt⟩).1.path
      · subst hqp
        rw [find_insert_same] at hq
        exact ⟨n, _, (Option.some.inj hq).symm, by omega, hkn, rfl⟩
      · rw [find_insert_other _ _ _ _ hqp] at hq
        obtain ⟨i, k, hv, hi, hk, hp⟩ := hA q v hq
        exact ⟨i, k, hv, by omega, hk, hp⟩
    · intro i k hi hk hlast
      by_cases hin : i = n
      · subst hin
        rw [hkn] at hk
        rw [← Option.some.inj hk, find_insert_same]
      · have hi' : i < n := by omega
        have hne : k.path ≠ (l.get ⟨n, hlt⟩).1.path :=
          fun h => hlast n _ hi' (by omega) hkn h.symm
        rw [find_insert_other _ _ _ _ hne]
        exact hB i k hi' hk (fun j k' hij hjn hk' => hlast j k' hij (by omega) hk')
    · omega

/-! ## Consistency of index and record list -/

theorem vectorAt_natCast {α : Type} (v : List α) (i : Nat) : vectorAt v (i : Int) = v[i]? := by
  simp [vectorAt]

theorem keys_getElem? {F : Type} (s : DTTPGParameters F) (i : Nat) :
    s.keys[i]? = (s.dataList[i]?).map (fun e => e.1) := by
  simp [DTTPGParameters.keys, List.getElem?_map]

theorem keys_length {F : Type} (s : DTTPGParameters F) : s.keys.length = s.dataList.length := by
  simp [DTTPGParameters.keys]

theorem IndexConsistent.injective {F : Type} {s : DTTPGParameters F} (h : IndexConsistent s)
    (i j : Nat) (k k' : DTTPGParametersId) (hi : s.keys[i]? = some k) (hj : s.keys[j]? = some k')
    (hp : k.path = k'.path) : i = j := by
  have h1 := h.1 i k hi
  have h2 := h.1 j k' hj
  rw [hp, h2] at h1
  exact (Int.ofNat.inj (Option.some.inj h1)).symm

theorem IndexConsistent.slot_lt {F : Type} {s : DTTPGParameters F} (h : IndexConsistent s)
    (path : List Int) (slot : Int) (hf : s.dBuf.find path = some slot) :
    0 ≤ slot ∧ slot < (s.dataList.length : Int) := by
  obtain ⟨i, k, hv, hk, _⟩ := h.2 path slot hf
  have hi : i < s.keys.length := (List.getElem?_eq_some_iff.mp hk).1
  rw [keys_length] at hi
  subst hv
  exact ⟨Int.ofNat_nonneg i, by exact_mod_cast hi⟩

/-- Under consistency a resolved path names an entry of the list with that key. -/
theorem IndexConsistent.entry_of_find {F : Type} {s : DTTPGParameters F}
    (h : IndexConsistent s) (k : DTTPGParametersId) (slot : Int)
    (hf : s.dBuf.find k.path = some slot) :
    ∃ (i : Nat) (d : DTTPGParametersData F), slot = (i : Int) ∧ s.dataList[i]? = some (k, d) := by
  obtain ⟨i, k', hv, hk, hp⟩ := h.2 k.path slot hf
  have hkk : k' = k := path_injective k' k hp
  subst hkk
  rw [keys_getElem?] at hk
  cases he : s.dataList[i]? with
  | none => simp [he] at hk
  | some e =>
    obtain ⟨k0, d⟩ := e
    simp [he] at hk
    subst hk
    exact ⟨i, d, hv, he⟩

/-- Under consistency a key that no entry holds is not resolved. -/
theorem IndexConsistent.find_none {F : Type} {s : DTTPGParameters F}
    (h : IndexConsistent s) (k : DTTPGParametersId) (hk : k ∉ s.keys) :
    s.dBuf.find k.path = none := by
  cases hf : s.dBuf.find k.path with
  | none => rfl
  | some slot =>
    obtain ⟨i, d, _, he⟩ := h.entry_of_find k slot hf
    exfalso
    apply hk
    have : s.keys[i]? = some k := by rw [keys_getElem?, he]; rfl
    exact List.getElem?_mem this

theorem indexConsistent_of_empty {F : Type} (s : DTTPGParameters F) (hl : s.dataList = [])
    (hb : s.dBuf = DTBufferTree.empty) : IndexConsistent s := by
  refine ⟨?_, ?_⟩
  · intro i k hk
    simp [DTTPGParameters.keys, hl] at hk
  · intro path slot hf
    rw [hb, find_empty] at hf
    cases hf

theorem initializeBuf_dataList {F : Type} (s : DTTPGParameters F) :
    s.initializeBuf.dataList = s.dataList := rfl

/-- The rebuild restores consistency on every list whose keys are pairwise distinct. -/
theorem initializeBuf_consistent {F : Type} (s : DTTPGParameters F)
    (hinj : ∀ (i j : Nat) (k k' : DTTPGParametersId), s.keys[i]? = some k →
      s.keys[j]? = some k' → k.path = k'.path → i = j) :
    IndexConsistent s.initializeBuf := by
  have hspec := initializeLoop_spec s.dataList 0 s.dBuf.clear (Nat.zero_le _)
    (by
      intro q v hq
      rw [DTBufferTree.clear, find_empty] at hq
      cases hq)
    (by
      intro i k hi
      omega)
  refine ⟨?_, ?_⟩
  · intro i k hk
    refine hspec.2 i k hk ?_
    intro j k' hij hk' hp
    have := hinj j i k' k hk' hk hp
    omega
  · intro path slot hf
    exact hspec.1 path slot hf

/-! ## What `set` does -/

theorem indexConsistent_congr {F : Type} {s s' : DTTPGParameters F} (hk : s'.keys = s.keys)
    (hb : s'.dBuf = s.dBuf) (h : IndexConsistent s) : IndexConsistent s' := by
  unfold IndexConsistent
  rw [hk, hb]
  exact h

theorem keys_set_same {F : Type} (l : List (DTTPGParametersId × DTTPGParametersData F))
    (i : Nat) (k : DTTPGParametersId) (d d' : DTTPGParametersData F)
    (he : l[i]? = some (k, d)) :
    (l.set i (k, d')).map (fun e => e.1) = l.map (fun e => e.1) := by
  apply List.ext_getElem?
  intro j
  by_cases hij : i = j
  · subst hij
    obtain ⟨hi, hv⟩ := List.getElem?_eq_some_iff.mp he
    simp [List.getElem?_map, List.getElem?_set, hi, hv]
  · simp [List.getElem?_map, List.getElem?_set, hij]

/-- On a miss of the index `set` appends the entry, binds its path to the new position and
returns 0. -/
theorem set_of_find_none {F : Type} [Div F] (s : DTTPGParameters F)
    (w st sec nc : Int) (ph : F) (unit : DTTimeUnits)
    (hf : s.dBuf.find (chanKey w st sec) = none) :
    s.set w st sec nc ph unit = some (0,
      { s with
        dataList := s.dataList ++
          [(({ wheelId := w, stationId := st, sectorId := sec } : DTTPGParametersId),
            ({ nClock := nc
               tPhase := if unit = DTTimeUnits.ns then ph / s.nsPerCount else ph } :
              DTTPGParametersData F))]
        dBuf := s.dBuf.insert (chanKey w st sec) (s.dataList.length : Int) }) := by
  simp [DTTPGParameters.set, hf]

/-- On a hit of the index at an entry of the list `set` overwrites the record there and
returns -1. -/
theorem set_of_find_some {F : Type} [Div F] (s : DTTPGParameters F)
    (w st sec nc : Int) (ph : F) (unit : DTTimeUnits) (i : Nat)
    (e : DTTPGParametersId × DTTPGParametersData F)
    (hf : s.dBuf.find (chanKey w st sec) = some (i : Int)) (he : s.dataList[i]? = some e) :
    s.set w st sec nc ph unit = some (-1,
      { s with
        dataList := s.dataList.set i
          (e.1, ({ nClock := nc
                   tPhase := if unit = DTTimeUnits.ns then ph / s.nsPerCount else ph } :
              DTTPGParametersData F)) }) := by
  simp [DTTPGParameters.set, hf, vectorAt_natCast, he]

theorem set_consistent {F : Type} [Div F] {s s' : DTTPGParameters F}
    (w st sec nc : Int) (ph : F) (unit : DTTimeUnits) (code : Int)
    (h : IndexConsistent s) (hs : s.set w st sec nc ph unit = some (code, s')) :
    IndexConsistent s' := by
  cases hf : s.dBuf.find (chanKey w st sec) with
  | none =>
    rw [set_of_find_none s w st sec nc ph unit hf] at hs
    have hs' := (Prod.mk.inj (Option.some.inj hs)).2
    subst hs'
    have hlen : s.keys.length = s.dataList.length := keys_length s
    refine ⟨?_, ?_⟩
    · intro i k hk
      simp only [DTTPGParameters.keys, List.map_append, List.map_cons, List.map_nil] at hk
      by_cases hi : i < s.keys.length
      · rw [List.getElem?_append_left (by simpa [DTTPGParameters.keys] using hi)] at hk
        have hold := h.1 i k hk
        have hne : k.path ≠ chanKey w st sec := by
          intro hp
          rw [hp, hf] at hold
          cases hold
        show (s.dBuf.insert (chanKey w st sec) (s.dataList.length : Int)).find k.path = _
        rw [find_insert_other _ _ _ _ hne]
        exact hold
      · have hi2 : i = s.dataList.length := by
          have hlt := (List.getElem?_eq_some_iff.mp hk).1
          simp at hlt
          simp [DTTPGParameters.keys] at hi
          omega
        subst hi2
        rw [List.getElem?_append_right (by simp)] at hk
        simp at hk
        subst hk
        show (s.dBuf.insert (chanKey w st sec) (s.dataList.length : Int)).find
          (chanKey w st sec) = _
        rw [find_insert_same]
    · intro path slot hp
      have hp' : (s.dBuf.insert (chanKey w st sec) (s.dataList.length : Int)).find path
          = some slot := hp
      by_cases hpe : path = chanKey w st sec
      · subst hpe
        rw [find_insert_same] at hp'
        refine ⟨s.dataList.length, ⟨w, st, sec⟩, (Option.some.inj hp').symm, ?_, rfl⟩
        simp [DTTPGParameters.keys]
      · rw [find_insert_other _ _ _ _ hpe] at hp'
        obtain ⟨i, k, hv, hk, hkp⟩ := h.2 path slot hp'
        refine ⟨i, k, hv, ?_, hkp⟩
        have hi : i < s.keys.length := (List.getElem?_eq_some_iff.mp hk).1
        simp only [DTTPGParameters.keys, List.map_append]
        rw [List.getElem?_append_left (by simpa [DTTPGParameters.keys] using hi)]
        exact hk
  | some slot =>
    obtain ⟨i, d, hv, he⟩ :=
      h.entry_of_find ⟨w, st, sec⟩ slot hf
    subst hv
    rw [set_of_find_some s w st sec nc ph unit i _ hf he] at hs
    have hs' := (Prod.mk.inj (Option.some.inj hs)).2
    subst hs'
    exact indexConsistent_congr (keys_set_same s.dataList i _ d _ he) rfl h

theorem clear_dataList {F : Type} (s : DTTPGParameters F) : s.clear.dataList = [] := rfl

theorem clear_dBuf {F : Type} (s : DTTPGParameters F) : s.clear.dBuf = DTBufferTree.empty := by
  show initializeLoop [] 0 s.dBuf.clear = DTBufferTree.empty
  rw [initializeLoop_done _ _ _ (by simp)]
  rfl

theorem assign_consistent {F : Type} (s rhs : DTTPGParameters F) (thisAddr rhsAddr : Nat)
    (hs : IndexConsistent s) (hrhs : IndexConsistent rhs) :
    IndexConsistent (s.assign rhs thisAddr rhsAddr) := by
  unfold DTTPGParameters.assign
  by_cases ha : thisAddr = rhsAddr
  · simpa [ha] using hs
  · simp only [ne_eq, ha, not_false_eq_true, if_true]
    apply initializeBuf_consistent
    intro i j k k' hi hj hp
    exact hrhs.injective i j k k' hi hj hp

/-- Every reachable store has index and record list in agreement. -/
theorem reachable_consistent {F : Type} [Div F] [IntCast F] {s : DTTPGParameters F}
    (hr : Reachable s) : IndexConsistent s := by
  induction hr with
  | new => exact indexConsistent_of_empty _ rfl rfl
  | newVersion version => exact indexConsistent_of_empty _ rfl rfl
  | set w st sec nc ph unit code _ hset ih => exact set_consistent w st sec nc ph unit code ih hset
  | clear _ _ => exact indexConsistent_of_empty _ (clear_dataList _) (clear_dBuf _)
  | assign thisAddr rhsAddr _ _ ih1 ih2 => exact assign_consistent _ _ _ _ ih1 ih2
  | setClock clock _ ih => exact indexConsistent_congr rfl rfl ih
  | setUnit unit _ ih => exact indexConsistent_congr rfl rfl ih
  | setVersion version _ ih => exact indexConsistent_congr rfl rfl ih

/-! ## What `get` does -/

theorem get_of_find_none {F : Type} [Zero F] [Mul F] (s : DTTPGParameters F)
    (w st sec nc0 : Int) (ph0 : F) (unit : DTTimeUnits)
    (hf : s.dBuf.find (chanKey w st sec) = none) :
    s.get w st sec nc0 ph0 unit = some (1, 0, 0) := by
  simp [DTTPGParameters.get, hf, searchStatus]

theorem get_of_find_some {F : Type} [Zero F] [Mul F] (s : DTTPGParameters F)
    (w st sec nc0 : Int) (ph0 : F) (unit : DTTimeUnits) (i : Nat)
    (e : DTTPGParametersId × DTTPGParametersData F)
    (hf : s.dBuf.find (chanKey w st sec) = some (i : Int)) (he : s.dataList[i]? = some e) :
    s.get w st sec nc0 ph0 unit
      = some (0, e.2.nClock,
          if unit = DTTimeUnits.ns then e.2.tPhase * s.nsPerCount else e.2.tPhase) := by
  simp [DTTPGParameters.get, hf, vectorAt_natCast, he, searchStatus]

/-- In a consistent store `get` hits exactly the keys of the list, at the record stored. -/
theorem get_of_entry {F : Type} [Zero F] [Mul F] (s : DTTPGParameters F)
    (h : IndexConsistent s) (i : Nat) (e : DTTPGParametersId × DTTPGParametersData F)
    (he : s.dataList[i]? = some e) (nc0 : Int) (ph0 : F) (unit : DTTimeUnits) :
    s.get e.1.wheelId e.1.stationId e.1.sectorId nc0 ph0 unit
      = some (0, e.2.nClock,
          if unit = DTTimeUnits.ns then e.2.tPhase * s.nsPerCount else e.2.tPhase) := by
  have hk : s.keys[i]? = some e.1 := by rw [keys_getElem?, he]; rfl
  exact get_of_find_some s _ _ _ nc0 ph0 unit i e (h.1 i e.1 hk) he

theorem get_of_not_mem {F : Type} [Zero F] [Mul F] (s : DTTPGParameters F)
    (h : IndexConsistent s) (w st sec : Int)
    (hk : ({ wheelId := w, stationId := st, sectorId := sec } : DTTPGParametersId) ∉ s.keys)
    (nc0 : Int) (ph0 : F) (unit : DTTimeUnits) :
    s.get w st sec nc0 ph0 unit = some (1, 0, 0) :=
  get_of_find_none s w st sec nc0 ph0 unit (h.find_none _ hk)

/-! ## Claims -/

/-- C1: in every store reachable from a constructed one by set, clear and copy-assignment,
each position `i` of the record list is found by the index under the path of the key it
holds, yielding exactly `i`, and every path the index resolves yields a position strictly
below the length of the record list. -/
theorem index_list_consistency {F : Type} [Div F] [IntCast F] (s : DTTPGParameters F)
    (hr : Reachable s) :
    (∀ (i : Nat) (e : DTTPGParametersId × DTTPGParametersData F), s.dataList[i]? = some e →
      s.dBuf.find (chanKey e.1.wheelId e.1.stationId e.1.sectorId) = some (i : Int)) ∧
    (∀ (path : List Int) (slot : Int), s.dBuf.find path = some slot →
      0 ≤ slot ∧ slot < (s.dataList.length : Int)) := by
  have h := reachable_consistent hr
  refine ⟨?_, ?_⟩
  · intro i e he
    have hk : s.keys[i]? = some e.1 := by rw [keys_getElem?, he]; rfl
    exact h.1 i e.1 hk
  · intro path slot hf
    exact h.slot_lt path slot hf

theorem sampleStore_reachable : Reachable sampleStore :=
  Reachable.set 1 2 3 4 (Flt.finite 5) DTTimeUnits.counts 0 Reachable.new rfl

/-- Witness of C1 on the store holding the one entry (1,2,3). -/
theorem index_list_consistency_witness :
    Reachable sampleStore ∧
    ((∀ (i : Nat) (e : DTTPGParametersId × DTTPGParametersData Flt),
        sampleStore.dataList[i]? = some e →
        sampleStore.dBuf.find (chanKey e.1.wheelId e.1.stationId e.1.sectorId)
          = some (i : Int)) ∧
      (∀ (path : List Int) (slot : Int), sampleStore.dBuf.find path = some slot →
        0 ≤ slot ∧ slot < (sampleStore.dataList.length : Int))) :=
  ⟨sampleStore_reachable, index_list_consistency sampleStore sampleStore_reachable⟩

/-- C2: on every reachable store `set` is an upsert with a distinguishable outcome: it returns
-1 and leaves the length of the record list unchanged exactly when `get` on the same triple
reported found (status 0) just before, otherwise it returns 0 and the record list grows by
exactly one; it never returns 99. -/
theorem set_upsert_outcome {F : Type} [Zero F] [Mul F] [Div F] [IntCast F]
    (s : DTTPGParameters F) (hr : Reachable s) (w st sec nc nc0 : Int) (ph ph0 : F)
    (unit unit0 : DTTimeUnits) :
    ∃ (status c : Int) (p : F) (code : Int) (s' : DTTPGParameters F),
      s.get w st sec nc0 ph0 unit0 = some (status, c, p) ∧
      s.set w st sec nc ph unit = some (code, s') ∧
      code ≠ 99 ∧
      ((code = -1 ∧ s'.dataList.length = s.dataList.length) ↔ status = 0) ∧
      (status ≠ 0 → code = 0 ∧ s'.dataList.length = s.dataList.length + 1) := by
  have h := reachable_consistent hr
  cases hf : s.dBuf.find (chanKey w st sec) with
  | none =>
    refine ⟨1, 0, 0, 0, _, get_of_find_none s w st sec nc0 ph0 unit0 hf,
      set_of_find_none s w st sec nc ph unit hf, by decide, ?_, ?_⟩
    · constructor
      · rintro ⟨hc, _⟩
        exact absurd hc (by decide)
      · intro h1
        exact absurd h1 (by decide)
    · intro _
      exact ⟨rfl, by simp⟩
  | some slot =>
    obtain ⟨i, d, hv, he⟩ := h.entry_of_find ⟨w, st, sec⟩ slot hf
    subst hv
    refine ⟨0, _, _, -1, _, get_of_find_some s w st sec nc0 ph0 unit0 i _ hf he,
      set_of_find_some s w st sec nc ph unit i _ hf he, by decide, ?_, ?_⟩
    · constructor
      · intro _
        rfl
      · intro _
        exact ⟨rfl, by simp⟩
    · intro h0
      exact absurd rfl h0

/-- Witness of C2 on the store holding the one entry (1,2,3), for a `set` on that key. -/
theorem set_upsert_outcome_witness :
    Reachable sampleStore ∧
    ∃ (status c : Int) (p : Flt) (code : Int) (s' : DTTPGParameters Flt),
      sampleStore.get 1 2 3 7 (Flt.finite 9) DTTimeUnits.ns = some (status, c, p) ∧
      sampleStore.set 1 2 3 6 (Flt.finite 8) DTTimeUnits.counts = some (code, s') ∧
      code ≠ 99 ∧
      ((code = -1 ∧ s'.dataList.length = sampleStore.dataList.length) ↔ status = 0) ∧
      (status ≠ 0 → code = 0 ∧ s'.dataList.length = sampleStore.dataList.length + 1) :=
  ⟨sampleStore_reachable,
    set_upsert_outcome sampleStore sampleStore_reachable 1 2 3 6 7 (Flt.finite 8) (Flt.finite 9)
      DTTimeUnits.counts DTTimeUnits.ns⟩

/-- C3: on every reachable store, after `set(w,s,t,c,p)` in raw counts a `get(w,s,t)` in raw
counts reports found (status 0) and returns exactly `(c,p)`, whether the `set` inserted
(code 0) or updated (code -1). -/
theorem set_get_raw_roundtrip {F : Type} [Zero F] [Mul F] [Div F] [IntCast F]
    (s : DTTPGParameters F) (hr : Reachable s) (w st sec c nc0 : Int) (p ph0 : F) :
    ∃ (code : Int) (s' : DTTPGParameters F),
      s.set w st sec c p DTTimeUnits.counts = some (code, s') ∧
      (code = 0 ∨ code = -1) ∧
      s'.get w st sec nc0 ph0 DTTimeUnits.counts = some (0, c, p) := by
  have h := reachable_consistent hr
  cases hf : s.dBuf.find (chanKey w st sec) with
  | none =>
    refine ⟨0, _, set_of_find_none s w st sec c p DTTimeUnits.counts hf, Or.inl rfl, ?_⟩
    rw [get_of_find_some _ w st sec nc0 ph0 DTTimeUnits.counts s.dataList.length
      (⟨w, st, sec⟩, ⟨c, p⟩) (find_insert_same _ _ _) (by simp)]
    simp
  | some slot =>
    obtain ⟨i, d, hv, he⟩ := h.entry_of_find ⟨w, st, sec⟩ slot hf
    subst hv
    have hi : i < s.dataList.length := (List.getElem?_eq_some_iff.mp he).1
    refine ⟨-1, _, set_of_find_some s w st sec c p DTTimeUnits.counts i _ hf he, Or.inr rfl, ?_⟩
    have key : ∀ s' : DTTPGParameters F, s'.dBuf = s.dBuf →
        s'.dataList[i]? = some (⟨w, st, sec⟩, ⟨c, p⟩) →
        s'.get w st sec nc0 ph0 DTTimeUnits.counts = some (0, c, p) := by
      intro s' hb he'
      rw [get_of_find_some s' w st sec nc0 ph0 DTTimeUnits.counts i _ (hb ▸ hf) he']
      simp
    exact key _ rfl (by simp [List.getElem?_set, hi])

/-- Witness of C3 on the store holding the one entry (1,2,3), for a fresh key. -/
theorem set_get_raw_roundtrip_witness :
    Reachable sampleStore ∧
    ∃ (code : Int) (s' : DTTPGParameters Flt),
      sampleStore.set 0 1 2 6 (Flt.finite 8) DTTimeUnits.counts = some (code, s') ∧
      (code = 0 ∨ code = -1) ∧
      s'.get 0 1 2 7 Flt.nan DTTimeUnits.counts = some (0, 6, Flt.finite 8) :=
  ⟨sampleStore_reachable,
    set_get_raw_roundtrip sampleStore sampleStore_reachable 0 1 2 6 7 (Flt.finite 8) Flt.nan⟩

theorem assign_keys {F : Type} (s rhs : DTTPGParameters F) (thisAddr rhsAddr : Nat)
    (hne : thisAddr ≠ rhsAddr) : (s.assign rhs thisAddr rhsAddr).keys = rhs.keys := by
  simp [DTTPGParameters.assign, hne, DTTPGParameters.keys, DTTPGParameters.initializeBuf]

/-- The keys after `set`: unchanged on an update, the new key appended on an insertion. -/
theorem set_keys {F : Type} [Div F] {s s' : DTTPGParameters F}
    (w st sec nc : Int) (ph : F) (unit : DTTimeUnits) (code : Int)
    (h : IndexConsistent s) (hs : s.set w st sec nc ph unit = some (code, s')) :
    s'.keys = s.keys ∨ s'.keys = s.keys ++ [⟨w, st, sec⟩] := by
  cases hf : s.dBuf.find (chanKey w st sec) with
  | none =>
    rw [set_of_find_none s w st sec nc ph unit hf] at hs
    have hs' := (Prod.mk.inj (Option.some.inj hs)).2
    subst hs'
    right
    simp [DTTPGParameters.keys]
  | some slot =>
    obtain ⟨i, d, hv, he⟩ := h.entry_of_find ⟨w, st, sec⟩ slot hf
    subst hv
    rw [set_of_find_some s w st sec nc ph unit i _ hf he] at hs
    have hs' := (Prod.mk.inj (Option.some.inj hs)).2
    subst hs'
    left
    exact keys_set_same s.dataList i _ d _ he

theorem reachableUnset_spec {F : Type} [Div F] [IntCast F] {key : DTTPGParametersId}
    {s : DTTPGParameters F} (hu : ReachableUnset key s) : Reachable s ∧ key ∉ s.keys := by
  induction hu with
  | new => exact ⟨Reachable.new, by simp [DTTPGParameters.keys, DTTPGParameters.new]⟩
  | newVersion version =>
    exact ⟨Reachable.newVersion version,
      by simp [DTTPGParameters.keys, DTTPGParameters.newVersion]⟩
  | set w st sec nc ph unit code _ hne hset ih =>
    refine ⟨Reachable.set w st sec nc ph unit code ih.1 hset, ?_⟩
    rcases set_keys w st sec nc ph unit code (reachable_consistent ih.1) hset with hk | hk
    · rw [hk]
      exact ih.2
    · rw [hk]
      intro hmem
      rcases List.mem_append.mp hmem with hm | hm
      · exact ih.2 hm
      · exact hne (List.mem_singleton.mp hm).symm
  | clear hr => exact ⟨Reachable.clear hr, by simp [DTTPGParameters.keys, clear_dataList]⟩
  | assign thisAddr rhsAddr hr _ hsame ih =>
    refine ⟨Reachable.assign thisAddr rhsAddr hr ih.1, ?_⟩
    by_cases ha : thisAddr = rhsAddr
    · have hs := hsame ha
      subst hs
      simpa [DTTPGParameters.assign, ha] using ih.2
    · rw [assign_keys _ _ _ _ ha]
      exact ih.2
  | setClock clock _ ih => exact ⟨Reachable.setClock clock ih.1, ih.2⟩
  | setUnit unit _ ih => exact ⟨Reachable.setUnit unit ih.1, ih.2⟩
  | setVersion version _ ih => exact ⟨Reachable.setVersion version ih.1, ih.2⟩

/-- C4: on every reachable store, for a triple that has not been set since construction or
since the last clear or assignment that removed it, `get` in either unit returns a non-zero
(not-found) status with count 0 and phase 0.0, whatever the output arguments held before. -/
theorem get_miss_semantics {F : Type} [Zero F] [Mul F] [Div F] [IntCast F]
    (s : DTTPGParameters F) (w st sec : Int)
    (hu : ReachableUnset { wheelId := w, stationId := st, sectorId := sec } s)
    (nc0 : Int) (ph0 : F) (unit : DTTimeUnits) :
    ∃ status : Int, s.get w st sec nc0 ph0 unit = some (status, 0, 0) ∧ status ≠ 0 := by
  obtain ⟨hr, hk⟩ := reachableUnset_spec hu
  exact ⟨1, get_of_not_mem s (reachable_consistent hr) w st sec hk nc0 ph0 unit, by decide⟩

theorem sampleStore_unset : ReachableUnset { wheelId := 3, stationId := 2, sectorId := 1 }
    sampleStore :=
  ReachableUnset.set 1 2 3 4 (Flt.finite 5) DTTimeUnits.counts 0 ReachableUnset.new
    (by decide) rfl

/-- Witness of C4: the key (3,2,1) on the store holding the one entry (1,2,3). -/
theorem get_miss_semantics_witness :
    ReachableUnset { wheelId := 3, stationId := 2, sectorId := 1 } sampleStore ∧
    ∃ status : Int,
      sampleStore.get 3 2 1 7 Flt.nan DTTimeUnits.ns = some (status, 0, 0) ∧ status ≠ 0 :=
  ⟨sampleStore_unset, get_miss_semantics sampleStore 3 2 1 sampleStore_unset 7 Flt.nan DTTimeUnits.ns⟩

theorem filter_eq_singleton {α : Type} (q : α → Bool) (l : List α) (i : Nat) (x : α)
    (hx : l[i]? = some x) (hq : q x = true)
    (huniq : ∀ (j : Nat) (y : α), l[j]? = some y → q y = true → j = i) :
    l.filter q = [x] := by
  induction l generalizing i with
  | nil => simp at hx
  | cons a t ih =>
    cases i with
    | zero =>
      simp at hx
      subst hx
      have ht : t.filter q = [] := by
        rw [List.filter_eq_nil_iff]
        intro y hy hqy
        obtain ⟨j, hj⟩ := List.mem_iff_getElem?.mp hy
        have := huniq (j + 1) y (by simpa using hj) hqy
        omega
      simp [List.filter, hq, ht]
    | succ i' =>
      have hqa : q a = false := by
        cases hqa : q a with
        | false => rfl
        | true =>
          have := huniq 0 a (by simp) hqa
          omega
      have hrec := ih i' (by simpa using hx) (fun j y hj hy => by
        have := huniq (j + 1) y (by simpa using hj) hy
        omega)
      simp [List.filter, hqa, hrec]

/-- In a consistent store the entries holding a given key are the one entry the index
resolves. -/
theorem filter_key_of_entry {F : Type} (s : DTTPGParameters F) (h : IndexConsistent s)
    (i : Nat) (e : DTTPGParametersId × DTTPGParametersData F) (he : s.dataList[i]? = some e) :
    s.dataList.filter (fun x => decide (x.1 = e.1)) = [e] := by
  apply filter_eq_singleton _ _ i e he (by simp)
  intro j y hj hy
  have hy' : y.1 = e.1 := by simpa using hy
  have hkj : s.keys[j]? = some y.1 := by rw [keys_getElem?, hj]; rfl
  have hki : s.keys[i]? = some e.1 := by rw [keys_getElem?, he]; rfl
  exact h.injective j i y.1 e.1 hkj hki (by rw [hy'])

/-- After `set` the store is consistent and holds the key with the record given, at some
position; the code tells whether the list grew. -/
theorem set_result {F : Type} [Div F] (s : DTTPGParameters F) (h : IndexConsistent s)
    (w st sec nc : Int) (ph : F) (unit : DTTimeUnits) :
    ∃ (code : Int) (s' : DTTPGParameters F) (i : Nat),
      s.set w st sec nc ph unit = some (code, s') ∧ IndexConsistent s' ∧
      s'.dataList[i]? = some (⟨w, st, sec⟩,
        ⟨nc, if unit = DTTimeUnits.ns then ph / s.nsPerCount else ph⟩) ∧
      s'.nsPerCount = s.nsPerCount ∧
      ((code = 0 ∧ s.dBuf.find (chanKey w st sec) = none ∧
          s'.dataList.length = s.dataList.length + 1) ∨
        (code = -1 ∧ s.dBuf.find (chanKey w st sec) = some (i : Int) ∧
          s'.dataList.length = s.dataList.length)) := by
  cases hf : s.dBuf.find (chanKey w st sec) with
  | none =>
    have hs := set_of_find_none s w st sec nc ph unit hf
    refine ⟨0, _, s.dataList.length, hs, set_consistent w st sec nc ph unit 0 h hs, by simp, rfl,
      Or.inl ⟨rfl, rfl, by simp⟩⟩
  | some slot =>
    obtain ⟨i, d, hv, he⟩ := h.entry_of_find ⟨w, st, sec⟩ slot hf
    subst hv
    have hi : i < s.dataList.length := (List.getElem?_eq_some_iff.mp he).1
    have hs := set_of_find_some s w st sec nc ph unit i _ hf he
    refine ⟨-1, _, i, hs, set_consistent w st sec nc ph unit (-1) h hs,
      by simp [List.getElem?_set, hi], rfl, Or.inr ⟨rfl, rfl, by simp⟩⟩

/-- C5: on every reachable store, `set(w,s,t,c1,p1)` followed by `set(w,s,t,c2,p2)`, both in
raw counts, leaves exactly one entry of the record list with key `(w,s,t)`, that entry holds
`(c2,p2)`, and the record list is as long after the second call as after the first. -/
theorem set_twice_same_key {F : Type} [Div F] [IntCast F] (s : DTTPGParameters F)
    (hr : Reachable s) (w st sec c1 c2 : Int) (p1 p2 : F) :
    ∃ (code1 code2 : Int) (s1 s2 : DTTPGParameters F),
      s.set w st sec c1 p1 DTTimeUnits.counts = some (code1, s1) ∧
      s1.set w st sec c2 p2 DTTimeUnits.counts = some (code2, s2) ∧
      s2.dataList.filter
          (fun e => decide (e.1 = { wheelId := w, stationId := st, sectorId := sec }))
        = [(⟨w, st, sec⟩, ⟨c2, p2⟩)] ∧
      s2.dataList.length = s1.dataList.length := by
  obtain ⟨code1, s1, i1, hs1, hc1, he1, _, _⟩ :=
    set_result s (reachable_consistent hr) w st sec c1 p1 DTTimeUnits.counts
  obtain ⟨code2, s2, i2, hs2, hc2, he2, _, hcase⟩ :=
    set_result s1 hc1 w st sec c2 p2 DTTimeUnits.counts
  refine ⟨code1, code2, s1, s2, hs1, hs2, ?_, ?_⟩
  · have := filter_key_of_entry s2 hc2 i2 _ he2
    simpa using this
  · rcases hcase with ⟨_, hnone, _⟩ | ⟨_, _, hlen⟩
    · have hk : s1.keys[i1]? = some ⟨w, st, sec⟩ := by rw [keys_getElem?, he1]; rfl
      have := hc1.1 i1 _ hk
      rw [show (⟨w, st, sec⟩ : DTTPGParametersId).path = chanKey w st sec from rfl, hnone] at this
      cases this
    · exact hlen

/-- Witness of C5 on the store holding the one entry (1,2,3), setting a fresh key twice. -/
theorem set_twice_same_key_witness :
    Reachable sampleStore ∧
    ∃ (code1 code2 : Int) (s1 s2 : DTTPGParameters Flt),
      sampleStore.set 0 1 2 6 (Flt.finite 8) DTTimeUnits.counts = some (code1, s1) ∧
      s1.set 0 1 2 7 (Flt.finite 9) DTTimeUnits.counts = some (code2, s2) ∧
      s2.dataList.filter
          (fun e => decide (e.1 = { wheelId := 0, stationId := 1, sectorId := 2 }))
        = [(⟨0, 1, 2⟩, ⟨7, Flt.finite 9⟩)] ∧
      s2.dataList.length = s1.dataList.length :=
  ⟨sampleStore_reachable,
    set_twice_same_key sampleStore sampleStore_reachable 0 1 2 6 7 (Flt.finite 8) (Flt.finite 9)⟩

/-- Calls of `set` in raw counts on pairwise distinct keys that the store does not hold: each
one inserts, and the calls are appended to the record list as they are. -/
theorem setAll_fresh {F : Type} [Div F] (s : DTTPGParameters F) (h : IndexConsistent s)
    (calls : List (DTTPGParametersId × DTTPGParametersData F))
    (hnd : (calls.map (fun c => c.1)).Nodup) (hfresh : ∀ c ∈ calls, c.1 ∉ s.keys) :
    ∃ s' : DTTPGParameters F,
      setAll s calls = some (List.replicate calls.length 0, s') ∧ IndexConsistent s' ∧
      s'.dataList = s.dataList ++ calls := by
  induction calls generalizing s with
  | nil => exact ⟨s, rfl, h, by simp⟩
  | cons call rest ih =>
    have hf : s.dBuf.find (chanKey call.1.wheelId call.1.stationId call.1.sectorId) = none :=
      h.find_none call.1 (hfresh call (List.mem_cons_self _ _))
    have hs := set_of_find_none s call.1.wheelId call.1.stationId call.1.sectorId
      call.2.nClock call.2.tPhase DTTimeUnits.counts hf
    have hc1 := set_consistent _ _ _ _ _ _ _ h hs
    simp only [List.map_cons, List.nodup_cons] at hnd
    obtain ⟨s', hall, hc', hl'⟩ := ih _ hc1 hnd.2 (by
      intro c hc hmem
      simp only [DTTPGParameters.keys, List.map_append, List.map_cons, List.map_nil,
        List.mem_append, List.mem_singleton] at hmem
      rcases hmem with hm | hm
      · exact hfresh c (List.mem_cons_of_mem _ hc) hm
      · apply hnd.1
        rw [← show c.1 = call.1 from hm]
        exact List.mem_map_of_mem _ hc)
    refine ⟨s', ?_, hc', ?_⟩
    · simp only [setAll, hs, hall, List.length_cons, List.replicate_succ]
    · rw [hl']
      simp

/-- C6: starting from a freshly constructed store, `set` in raw counts on N pairwise distinct
triples returns 0 (inserted) at each call, leaves a record list of length exactly N, and
for each of the triples a `get` in raw counts reports found and returns exactly the count
and phase given for it. -/
theorem set_distinct_keys {F : Type} [Zero F] [Mul F] [Div F] [IntCast F]
    (s0 : DTTPGParameters F)
    (h0 : s0 = DTTPGParameters.new ∨ ∃ version : String, s0 = DTTPGParameters.newVersion version)
    (calls : List (DTTPGParametersId × DTTPGParametersData F))
    (hnd : (calls.map (fun c => c.1)).Nodup) :
    ∃ s' : DTTPGParameters F,
      setAll s0 calls = some (List.replicate calls.length 0, s') ∧
      s'.dataList.length = calls.length ∧
      ∀ call ∈ calls, ∀ (nc0 : Int) (ph0 : F),
        s'.get call.1.wheelId call.1.stationId call.1.sectorId nc0 ph0 DTTimeUnits.counts
          = some (0, call.2.nClock, call.2.tPhase) := by
  have hl0 : s0.dataList = [] := by
    rcases h0 with h | ⟨v, h⟩ <;> rw [h] <;> rfl
  have hb0 : s0.dBuf = DTBufferTree.empty := by
    rcases h0 with h | ⟨v, h⟩ <;> rw [h] <;> rfl
  obtain ⟨s', hall, hc', hl'⟩ := setAll_fresh s0 (indexConsistent_of_empty s0 hl0 hb0) calls hnd
    (by simp [DTTPGParameters.keys, hl0])
  rw [hl0, List.nil_append] at hl'
  refine ⟨s', hall, by rw [hl'], ?_⟩
  intro call hcall nc0 ph0
  obtain ⟨i, hi⟩ := List.mem_iff_getElem?.mp hcall
  rw [← hl'] at hi
  rw [get_of_entry s' hc' i call hi nc0 ph0 DTTimeUnits.counts]
  simp

/-- Witness of C6: two distinct keys set on a default-constructed store. -/
theorem set_distinct_keys_witness :
    ∃ s' : DTTPGParameters Flt,
      setAll DTTPGParameters.new
          [(⟨1, 2, 3⟩, ⟨4, Flt.finite 5⟩), (⟨3, 2, 1⟩, ⟨6, Flt.finite 7⟩)]
        = some (List.replicate 2 0, s') ∧
      s'.dataList.length = 2 ∧
      ∀ call ∈ ([(⟨1, 2, 3⟩, ⟨4, Flt.finite 5⟩), (⟨3, 2, 1⟩, ⟨6, Flt.finite 7⟩)] :
          List (DTTPGParametersId × DTTPGParametersData Flt)),
        ∀ (nc0 : Int) (ph0 : Flt),
          s'.get call.1.wheelId call.1.stationId call.1.sectorId nc0 ph0 DTTimeUnits.counts
            = some (0, call.2.nClock, call.2.tPhase) :=
  set_distinct_keys DTTPGParameters.new (Or.inl rfl)
    [(⟨1, 2, 3⟩, ⟨4, Flt.finite 5⟩), (⟨3, 2, 1⟩, ⟨6, Flt.finite 7⟩)] (by decide)

/-- C7: after `clear()` on any store, reachable ones in particular, the record list is empty,
`get` on every triple returns a non-zero (not-found) status with count 0 and phase 0.0, a
following `set` on any triple returns 0 (inserted), and version, clockLength and nsPerCount
are the ones before the call. -/
theorem clear_resets_fully {F : Type} [Zero F] [Mul F] [Div F] (s : DTTPGParameters F) :
    s.clear.dataList = [] ∧
    (∀ (w st sec nc0 : Int) (ph0 : F) (unit : DTTimeUnits),
      ∃ status : Int, s.clear.get w st sec nc0 ph0 unit = some (status, 0, 0) ∧ status ≠ 0) ∧
    (∀ (w st sec nc : Int) (ph : F) (unit : DTTimeUnits),
      ∃ s' : DTTPGParameters F, s.clear.set w st sec nc ph unit = some (0, s')) ∧
    s.clear.version = s.version ∧ s.clear.clock = s.clock ∧ s.clear.unit = s.unit := by
  refine ⟨clear_dataList s, ?_, ?_, rfl, rfl, rfl⟩
  · intro w st sec nc0 ph0 unit
    refine ⟨1, get_of_find_none _ w st sec nc0 ph0 unit ?_, by decide⟩
    rw [clear_dBuf, find_empty]
  · intro w st sec nc ph unit
    exact ⟨_, set_of_find_none _ w st sec nc ph unit (by rw [clear_dBuf, find_empty])⟩

/-! ## Assignment -/

theorem assign_fields {F : Type} (s rhs : DTTPGParameters F) (thisAddr rhsAddr : Nat)
    (hne : thisAddr ≠ rhsAddr) :
    (s.assign rhs thisAddr rhsAddr).dataVersion = rhs.dataVersion ∧
    (s.assign rhs thisAddr rhsAddr).nsPerCount = rhs.nsPerCount ∧
    (s.assign rhs thisAddr rhsAddr).clockLength = rhs.clockLength ∧
    (s.assign rhs thisAddr rhsAddr).dataList = rhs.dataList := by
  simp [DTTPGParameters.assign, hne, DTTPGParameters.initializeBuf]

/-- Two consistent stores with the same record list and unit scale answer `get` alike. -/
theorem get_congr {F : Type} [Zero F] [Mul F] (a b : DTTPGParameters F)
    (ha : IndexConsistent a) (hb : IndexConsistent b) (hl : b.dataList = a.dataList)
    (hu : b.nsPerCount = a.nsPerCount) (w st sec nc0 : Int) (ph0 : F) (unit : DTTimeUnits) :
    b.get w st sec nc0 ph0 unit = a.get w st sec nc0 ph0 unit := by
  have hkeys : b.keys = a.keys := by simp [DTTPGParameters.keys, hl]
  cases hf : a.dBuf.find (chanKey w st sec) with
  | none =>
    have hnot : (⟨w, st, sec⟩ : DTTPGParametersId) ∉ a.keys := by
      intro hmem
      obtain ⟨i, hi⟩ := List.mem_iff_getElem?.mp hmem
      have := ha.1 i _ hi
      rw [show (⟨w, st, sec⟩ : DTTPGParametersId).path = chanKey w st sec from rfl, hf] at this
      cases this
    rw [get_of_find_none a w st sec nc0 ph0 unit hf,
      get_of_not_mem b hb w st sec (by rw [hkeys]; exact hnot) nc0 ph0 unit]
  | some slot =>
    obtain ⟨i, d, hv, he⟩ := ha.entry_of_find ⟨w, st, sec⟩ slot hf
    subst hv
    have hgb := get_of_entry b hb i (⟨w, st, sec⟩, d) (by rw [hl]; exact he) nc0 ph0 unit
    have hga := get_of_entry a ha i (⟨w, st, sec⟩, d) he nc0 ph0 unit
    simp only at hga hgb
    rw [hga, hgb, hu]

/-- C8: for reachable stores `A` (at address `a`) and `B` (at another address `b`), empty or
not, after `B = A` the version, nsPerCount, clockLength and record list of `B` are those of
`A`, and `get` on `B` returns the same status, count and phase as `get` on `A` for every
triple and unit, so that every entry of `A` is found in `B` and a triple `A` lacks is not
found; `A` itself is untouched; a later `set` or `clear` on `A` leaves `B` as it is, and a
later `set` or `clear` on `B` leaves `A` as it is. -/
theorem assign_rebuild {F : Type} [Zero F] [Mul F] [Div F] [IntCast F]
    (m : Memory F) (a b : Nat) (A B : DTTPGParameters F) (hab : a ≠ b)
    (hA : m[a]? = some A) (hB : m[b]? = some B) (rA : Reachable A) (rB : Reachable B) :
    ∃ (m1 : Memory F) (B1 : DTTPGParameters F),
      m.assign b a = some m1 ∧ m1[b]? = some B1 ∧ m1[a]? = some A ∧
      B1.version = A.version ∧ B1.unit = A.unit ∧ B1.clock = A.clock ∧
      B1.dataList = A.dataList ∧
      (∀ (w st sec nc0 : Int) (ph0 : F) (unit : DTTimeUnits),
        B1.get w st sec nc0 ph0 unit = A.get w st sec nc0 ph0 unit) ∧
      (∀ e ∈ A.dataList, ∀ (nc0 : Int) (ph0 : F),
        B1.get e.1.wheelId e.1.stationId e.1.sectorId nc0 ph0 DTTimeUnits.counts
          = some (0, e.2.nClock, e.2.tPhase)) ∧
      (∀ (w st sec : Int), (∀ e ∈ A.dataList, e.1 ≠ ⟨w, st, sec⟩) →
        ∀ (nc0 : Int) (ph0 : F) (unit : DTTimeUnits),
          ∃ status : Int, B1.get w st sec nc0 ph0 unit = some (status, 0, 0) ∧ status ≠ 0) ∧
      (∀ (w st sec nc : Int) (ph : F) (unit : DTTimeUnits),
        ∃ (code : Int) (m2 : Memory F),
          m1.set a w st sec nc ph unit = some (code, m2) ∧ m2[b]? = some B1) ∧
      (∃ m2 : Memory F, m1.clear a = some m2 ∧ m2[b]? = some B1) ∧
      (∀ (w st sec nc : Int) (ph : F) (unit : DTTimeUnits),
        ∃ (code : Int) (m2 : Memory F),
          m1.set b w st sec nc ph unit = some (code, m2) ∧ m2[a]? = some A) ∧
      (∃ m2 : Memory F, m1.clear b = some m2 ∧ m2[a]? = some A) := by
  have hba : b ≠ a := fun h => hab h.symm
  have hcA := reachable_consistent rA
  have hcB1 : IndexConsistent (B.assign A b a) :=
    assign_consistent B A b a (reachable_consistent rB) hcA
  obtain ⟨hver, hns, hclk, hlist⟩ := assign_fields B A b a hba
  have hblt : b < m.length := (List.getElem?_eq_some_iff.mp hB).1
  have h1b : (List.set m b (B.assign A b a))[b]? = some (B.assign A b a) := by
    simp [List.getElem?_set, hblt]
  have h1a : (List.set m b (B.assign A b a))[a]? = some A := by
    rw [List.getElem?_set_ne hba]
    exact hA
  have halt : a < (List.set m b (B.assign A b a)).length :=
    (List.getElem?_eq_some_iff.mp h1a).1
  have hblt1 : b < (List.set m b (B.assign A b a)).length :=
    (List.getElem?_eq_some_iff.mp h1b).1
  refine ⟨List.set m b (B.assign A b a), B.assign A b a, ?_, h1b, h1a, hver, hns, hclk, hlist,
    ?_, ?_, ?_, ?_, ?_, ?_, ?_⟩
  · simp [Memory.assign, hA, hB]
  · intro w st sec nc0 ph0 unit
    exact get_congr A _ hcA hcB1 hlist hns w st sec nc0 ph0 unit
  · intro e he nc0 ph0
    obtain ⟨i, hi⟩ := List.mem_iff_getElem?.mp he
    rw [get_of_entry _ hcB1 i e (by rw [hlist]; exact hi) nc0 ph0 DTTimeUnits.counts]
    simp
  · intro w st sec hlack nc0 ph0 unit
    refine ⟨1, get_of_not_mem _ hcB1 w st sec ?_ nc0 ph0 unit, by decide⟩
    intro hmem
    simp only [DTTPGParameters.keys, hlist, List.mem_map] at hmem
    obtain ⟨e, he, hek⟩ := hmem
    exact hlack e he hek
  · intro w st sec nc ph unit
    obtain ⟨code, A', _, hs, _⟩ := set_result A hcA w st sec nc ph unit
    refine ⟨code, List.set (List.set m b (B.assign A b a)) a A', ?_, ?_⟩
    · simp only [Memory.set, h1a, hs]
    · rw [List.getElem?_set_ne hab]
      exact h1b
  · refine ⟨List.set (List.set m b (B.assign A b a)) a A.clear, ?_, ?_⟩
    · simp only [Memory.clear, h1a]
    · rw [List.getElem?_set_ne hab]
      exact h1b
  · intro w st sec nc ph unit
    obtain ⟨code, B', _, hs, _⟩ := set_result (B.assign A b a) hcB1 w st sec nc ph unit
    refine ⟨code, List.set (List.set m b (B.assign A b a)) b B', ?_, ?_⟩
    · simp only [Memory.set, h1b, hs]
    · rw [List.getElem?_set_ne hba]
      exact h1a
  · refine ⟨List.set (List.set m b (B.assign A b a)) b (B.assign A b a).clear, ?_, ?_⟩
    · simp only [Memory.clear, h1b]
    · rw [List.getElem?_set_ne hba]
      exact h1a

theorem sampleStore2_reachable : Reachable sampleStore2 :=
  Reachable.set 3 2 1 6 (Flt.finite 7) DTTimeUnits.counts 0 (Reachable.newVersion "v2") rfl

/-- Witness of C8: `A` holds the one entry (1,2,3), `B` holds the one entry (3,2,1). -/
theorem assign_rebuild_witness :
    ∃ (m1 : Memory Flt) (B1 : DTTPGParameters Flt),
      Memory.assign [sampleStore, sampleStore2] 1 0 = some m1 ∧ m1[1]? = some B1 ∧
      m1[0]? = some sampleStore ∧
      B1.version = sampleStore.version ∧ B1.unit = sampleStore.unit ∧
      B1.clock = sampleStore.clock ∧ B1.dataList = sampleStore.dataList ∧
      (∀ (w st sec nc0 : Int) (ph0 : Flt) (unit : DTTimeUnits),
        B1.get w st sec nc0 ph0 unit = sampleStore.get w st sec nc0 ph0 unit) ∧
      (∀ e ∈ sampleStore.dataList, ∀ (nc0 : Int) (ph0 : Flt),
        B1.get e.1.wheelId e.1.stationId e.1.sectorId nc0 ph0 DTTimeUnits.counts
          = some (0, e.2.nClock, e.2.tPhase)) ∧
      (∀ (w st sec : Int), (∀ e ∈ sampleStore.dataList, e.1 ≠ ⟨w, st, sec⟩) →
        ∀ (nc0 : Int) (ph0 : Flt) (unit : DTTimeUnits),
          ∃ status : Int, B1.get w st sec nc0 ph0 unit = some (status, 0, 0) ∧ status ≠ 0) ∧
      (∀ (w st sec nc : Int) (ph : Flt) (unit : DTTimeUnits),
        ∃ (code : Int) (m2 : Memory Flt),
          m1.set 0 w st sec nc ph unit = some (code, m2) ∧ m2[1]? = some B1) ∧
      (∃ m2 : Memory Flt, m1.clear 0 = some m2 ∧ m2[1]? = some B1) ∧
      (∀ (w st sec nc : Int) (ph : Flt) (unit : DTTimeUnits),
        ∃ (code : Int) (m2 : Memory Flt),
          m1.set 1 w st sec nc ph unit = some (code, m2) ∧ m2[0]? = some sampleStore) ∧
      (∃ m2 : Memory Flt, m1.clear 1 = some m2 ∧ m2[0]? = some sampleStore) :=
  assign_rebuild [sampleStore, sampleStore2] 0 1 sampleStore sampleStore2 (by decide) rfl rfl
    sampleStore_reachable sampleStore2_reachable

/-! ## totalTime -/

theorem wrapInt32_of_range (x : Int) (hlo : -2147483648 ≤ x) (hhi : x < 2147483648) :
    wrapInt32 x = x := by
  unfold wrapInt32
  omega

/-- The result of `get` does not depend on what the output arguments held before. -/
theorem get_output_args {F : Type} [Zero F] [Mul F] (s : DTTPGParameters F)
    (w st sec nc0 nc1 : Int) (ph0 ph1 : F) (unit : DTTimeUnits) :
    s.get w st sec nc0 ph0 unit = s.get w st sec nc1 ph1 unit := rfl

/-- A non-zero status of `get` comes with count 0 and phase 0.0. -/
theorem get_miss_values {F : Type} [Zero F] [Mul F] (s : DTTPGParameters F)
    (w st sec nc0 status c : Int) (ph0 p : F) (unit : DTTimeUnits)
    (hget : s.get w st sec nc0 ph0 unit = some (status, c, p)) (hmiss : status ≠ 0) :
    c = 0 ∧ p = 0 := by
  unfold DTTPGParameters.get at hget
  cases hf : s.dBuf.find (chanKey w st sec) with
  | none =>
    simp only [hf, Option.some.injEq, Prod.mk.injEq] at hget
    exact ⟨hget.2.1.symm, hget.2.2.symm⟩
  | some slot =>
    simp only [hf] at hget
    cases hv : vectorAt s.dataList slot with
    | none => simp [hv] at hget
    | some e =>
      simp [hv, searchStatus] at hget
      exact absurd hget.1.symm hmiss

/-- The counterexample to C9 as stated: with count 2^30 and the default clock length 32 the
`int` product `cl * clock()` is 2^35, which does not fit an `int` and wraps to 0, so
`totalTime` in raw counts is the phase 5 alone and not 2^30 * 32 + 5. -/
theorem totalTime_formula_counterexample :
    Reachable overflowStore ∧
    overflowStore.get 1 2 3 0 0 DTTimeUnits.counts = some (0, 1073741824, Flt.finite 5) ∧
    overflowStore.totalTime 1 2 3 DTTimeUnits.counts = some (Flt.finite 5) ∧
    overflowStore.totalTime 1 2 3 DTTimeUnits.counts
      ≠ some (((1073741824 * overflowStore.clockLength : Int) : Flt) + Flt.finite 5) := by
  have hget : overflowStore.get 1 2 3 0 0 DTTimeUnits.counts
      = some (0, 1073741824, Flt.finite 5) := rfl
  have htot : overflowStore.totalTime 1 2 3 DTTimeUnits.counts = some (Flt.finite 5) := by
    have hw : wrapInt32 (1073741824 * overflowStore.clock) = 0 := by decide
    simp only [DTTPGParameters.totalTime, hget, hw]
    show some (Flt.finite (((0 : Int) : ℚ) + 5)) = some (Flt.finite 5)
    norm_num
  refine ⟨Reachable.set 1 2 3 1073741824 (Flt.finite 5) DTTimeUnits.counts 0 Reachable.new rfl,
    hget, htot, ?_⟩
  rw [htot]
  show some (Flt.finite 5)
    ≠ some (Flt.finite (((1073741824 * (32 : Int) : Int) : ℚ) + 5))
  norm_num

/-- C9, amended: for every store, reachable ones in particular, and every triple on which
`get` in the unit reports found with `(count, phase)`, when the product count * clockLength
fits a 32-bit `int`, `totalTime` in that unit is that product, converted to float, times
nsPerCount plus phase in nanoseconds, and that product plus phase in raw counts. -/
theorem totalTime_formula {F : Type} [Zero F] [Add F] [Mul F] [IntCast F]
    (s : DTTPGParameters F) (w st sec nc0 count : Int) (ph0 phase : F) (unit : DTTimeUnits)
    (hget : s.get w st sec nc0 ph0 unit = some (0, count, phase))
    (hlo : -2147483648 ≤ count * s.clockLength) (hhi : count * s.clockLength < 2147483648) :
    s.totalTime w st sec unit
      = some (if unit = DTTimeUnits.ns then
          ((count * s.clockLength : Int) : F) * s.nsPerCount + phase
        else ((count * s.clockLength : Int) : F) + phase) := by
  rw [get_output_args s w st sec nc0 0 ph0 0 unit] at hget
  simp only [DTTPGParameters.totalTime, hget, DTTPGParameters.clock,
    wrapInt32_of_range _ hlo hhi]
  cases unit <;> simp

/-- Witness of C9, amended: the entry (1,2,3) with count 4 and the clock length 32. -/
theorem totalTime_formula_witness :
    sampleStore.totalTime 1 2 3 DTTimeUnits.ns
      = some (if DTTimeUnits.ns = DTTimeUnits.ns then
          ((4 * sampleStore.clockLength : Int) : Flt) * sampleStore.nsPerCount
            + Flt.finite 5 * sampleStore.nsPerCount
        else ((4 * sampleStore.clockLength : Int) : Flt) + Flt.finite 5 * sampleStore.nsPerCount) :=
  totalTime_formula sampleStore 1 2 3 7 4 Flt.nan (Flt.finite 5 * sampleStore.nsPerCount)
    DTTimeUnits.ns rfl (by decide) (by decide)

/-- The counterexample to C10 as stated: after `setUnit(NaN)` on a default-constructed store
`get` on (1,2,3) reports not-found, and `totalTime` in nanoseconds is 0 * 32 converted to
float, times NaN, plus 0.0, which is NaN and not 0. -/
theorem totalTime_miss_counterexample :
    Reachable nanStore ∧
    nanStore.get 1 2 3 0 0 DTTimeUnits.ns = some (1, 0, 0) ∧
    nanStore.totalTime 1 2 3 DTTimeUnits.ns = some Flt.nan ∧
    nanStore.totalTime 1 2 3 DTTimeUnits.ns ≠ some 0 := by
  have htot : nanStore.totalTime 1 2 3 DTTimeUnits.ns = some Flt.nan := rfl
  refine ⟨Reachable.setUnit Flt.nan Reachable.new, rfl, htot, ?_⟩
  rw [htot]
  intro h
  cases h

/-- C10, amended: for every store, reachable ones in particular, every clockLength and every
triple for which `get` reports not-found, `totalTime` is 0 in raw counts, and is 0 in
nanoseconds whenever 0.0 * nsPerCount + 0.0 is 0, as it is for every finite nsPerCount; the
carrier has float(0) = 0.0 and, for raw counts, 0.0 + 0.0 = 0.0. -/
theorem totalTime_miss {F : Type} [Zero F] [Add F] [Mul F] [IntCast F]
    (s : DTTPGParameters F) (w st sec nc0 status c : Int) (ph0 p : F) (unit : DTTimeUnits)
    (hget : s.get w st sec nc0 ph0 unit = some (status, c, p)) (hmiss : status ≠ 0)
    (hcast : ((0 : Int) : F) = 0)
    (hraw : unit = DTTimeUnits.counts → (0 : F) + 0 = 0)
    (hns : unit = DTTimeUnits.ns → (0 : F) * s.nsPerCount + 0 = 0) :
    s.totalTime w st sec unit = some 0 := by
  obtain ⟨hc, hp⟩ := get_miss_values s w st sec nc0 status c ph0 p unit hget hmiss
  subst hc
  subst hp
  rw [get_output_args s w st sec nc0 0 ph0 0 unit] at hget
  have hw : wrapInt32 (0 * s.clock) = 0 := by
    rw [Int.zero_mul]
    rfl
  simp only [DTTPGParameters.totalTime, hget, hw, hcast]
  cases unit with
  | counts => simpa using hraw rfl
  | ns => simpa using hns rfl

/-- Witness of C10, amended: the key (3,2,1) on the store holding the one entry (1,2,3), with
the default nsPerCount 25/32, in nanoseconds. -/
theorem totalTime_miss_witness :
    sampleStore.get 3 2 1 7 Flt.nan DTTimeUnits.ns = some (1, 0, 0) ∧
    sampleStore.totalTime 3 2 1 DTTimeUnits.ns = some 0 :=
  ⟨rfl, totalTime_miss sampleStore 3 2 1 7 1 0 Flt.nan 0 DTTimeUnits.ns rfl (by decide) rfl
    (fun h => by cases h)
    (fun _ => by
      show (Flt.finite 0 * (Flt.finite ((25 : Int) : ℚ) / Flt.finite ((32 : Int) : ℚ))
        + Flt.finite 0 : Flt) = Flt.finite 0
      have h32 : (((32 : Int) : ℚ)) ≠ 0 := by norm_num
      show (match (Flt.finite 0 * (if (((32 : Int) : ℚ)) = 0 then Flt.nan
          else Flt.finite (((25 : Int) : ℚ) / ((32 : Int) : ℚ))) : Flt), Flt.finite 0 with
        | Flt.finite x, Flt.finite y => Flt.finite (x + y)
        | _, _ => Flt.nan) = Flt.finite 0
      rw [if_neg h32]
      show Flt.finite (0 * (((25 : Int) : ℚ) / ((32 : Int) : ℚ)) + 0) = Flt.finite 0
      norm_num)⟩

/-! ## Nanosecond units and bounds -/

/-- Two operations, each within relative error `ε` of the exact one, bring a value back within
relative error `2ε + ε²`: `q` stands for the computed `a / u`, `r` for the computed `q * u`. -/
theorem roundtrip_error (a u q r ε : ℚ) (hu : u ≠ 0) (hε : 0 ≤ ε)
    (h1 : |q - a / u| ≤ ε * |a / u|) (h2 : |r - q * u| ≤ ε * |q * u|) :
    |r - a| ≤ (2 * ε + ε ^ 2) * |a| := by
  have hq : |q * u - a| ≤ ε * |a| := by
    have hrew : q * u - a = (q - a / u) * u := by
      field_simp
    rw [hrew, abs_mul]
    calc |q - a / u| * |u| ≤ ε * |a / u| * |u| :=
          mul_le_mul_of_nonneg_right h1 (abs_nonneg u)
      _ = ε * |a| := by rw [mul_assoc, ← abs_mul, div_mul_cancel₀ a hu]
  have hqu : |q * u| ≤ (1 + ε) * |a| := by
    have := abs_sub_abs_le_abs_sub (q * u) a
    linarith
  have h3 : |r - a| ≤ |r - q * u| + |q * u - a| := abs_sub_le r (q * u) a
  have h4 : ε * |q * u| ≤ ε * ((1 + ε) * |a|) := mul_le_mul_of_nonneg_left hqu hε
  calc |r - a| ≤ |r - q * u| + |q * u - a| := h3
    _ ≤ ε * ((1 + ε) * |a|) + ε * |a| := by linarith
    _ = (2 * ε + ε ^ 2) * |a| := by ring

theorem Flt.finite_div (x y : ℚ) (hy : y ≠ 0) :
    Flt.finite x / Flt.finite y = Flt.finite (x / y) := by
  show (if y = 0 then Flt.nan else Flt.finite (x / y)) = Flt.finite (x / y)
  rw [if_neg hy]

theorem Flt.finite_mul (x y : ℚ) : Flt.finite x * Flt.finite y = Flt.finite (x * y) := rfl

theorem new_nsPerCount_Flt :
    (DTTPGParameters.new : DTTPGParameters Flt).nsPerCount = Flt.finite (25 / 32) := by
  show Flt.finite (((25 : Int) : ℚ)) / Flt.finite (((32 : Int) : ℚ)) = Flt.finite (25 / 32)
  rw [Flt.finite_div _ _ (by norm_num)]
  norm_num

/-- The counterexample to C11 as stated: after `setUnit(NaN)` on a default-constructed store,
whose unit scale is then not zero, `set(1,2,3,4,5.0,ns)` stores the phase 5.0 / NaN = NaN,
and `get` in nanoseconds returns NaN * NaN = NaN, which is within no tolerance of 5.0. -/
theorem set_ns_readback_counterexample :
    Reachable nanStore ∧ nanStore.nsPerCount ≠ 0 ∧
    ∃ s' : DTTPGParameters Flt,
      nanStore.set 1 2 3 4 (Flt.finite 5) DTTimeUnits.ns = some (0, s') ∧
      s'.get 1 2 3 0 0 DTTimeUnits.counts = some (0, 4, Flt.nan) ∧
      s'.get 1 2 3 0 0 DTTimeUnits.ns = some (0, 4, Flt.nan) ∧
      Flt.nan ≠ Flt.finite 5 := by
  refine ⟨Reachable.setUnit Flt.nan Reachable.new, ?_, _, rfl, rfl, rfl, ?_⟩
  · show Flt.nan ≠ Flt.finite 0
    intro h
    cases h
  · intro h
    cases h

/-- C11, amended: on every reachable store, after `set(w,s,t,c,p)` in nanoseconds a
`get(w,s,t)` in raw counts returns count `c` and phase `p / nsPerCount`, and a `get(w,s,t)`
in nanoseconds returns count `c` and phase `(p / nsPerCount) * nsPerCount`. In a carrier
whose division cancels (exact arithmetic) and with nsPerCount non-zero that phase is `p`
itself. In floating point it is within relative error `2ε + ε²` of `p` provided nsPerCount
has a non-zero value and, at this `p`, the quotient and the product are each within
relative error `ε` of the exact ones (no NaN, overflow or underflow); `val` gives the
number a float stands for. -/
theorem set_ns_readback {F : Type} [Zero F] [Mul F] [Div F] [IntCast F]
    (s : DTTPGParameters F) (hr : Reachable s) (w st sec c nc0 : Int) (p ph0 : F) :
    ∃ (code : Int) (s' : DTTPGParameters F),
      s.set w st sec c p DTTimeUnits.ns = some (code, s') ∧
      s'.unit = s.unit ∧
      s'.get w st sec nc0 ph0 DTTimeUnits.counts = some (0, c, p / s.nsPerCount) ∧
      s'.get w st sec nc0 ph0 DTTimeUnits.ns
        = some (0, c, p / s.nsPerCount * s.nsPerCount) ∧
      ((∀ x y : F, y ≠ 0 → x / y * y = x) → s.nsPerCount ≠ 0 →
        s'.get w st sec nc0 ph0 DTTimeUnits.ns = some (0, c, p)) ∧
      (∀ (val : F → ℚ) (ε : ℚ), 0 ≤ ε → val s.nsPerCount ≠ 0 →
        |val (p / s.nsPerCount) - val p / val s.nsPerCount|
          ≤ ε * |val p / val s.nsPerCount| →
        |val (p / s.nsPerCount * s.nsPerCount) - val (p / s.nsPerCount) * val s.nsPerCount|
          ≤ ε * |val (p / s.nsPerCount) * val s.nsPerCount| →
        ∃ r : F, s'.get w st sec nc0 ph0 DTTimeUnits.ns = some (0, c, r) ∧
          |val r - val p| ≤ (2 * ε + ε ^ 2) * |val p|) := by
  obtain ⟨code, s', i, hs, hc', he, hu, _⟩ :=
    set_result s (reachable_consistent hr) w st sec c p DTTimeUnits.ns
  have hraw := get_of_entry s' hc' i _ he nc0 ph0 DTTimeUnits.counts
  have hns := get_of_entry s' hc' i _ he nc0 ph0 DTTimeUnits.ns
  simp only [if_true, hu] at hraw hns
  have hraw' : s'.get w st sec nc0 ph0 DTTimeUnits.counts = some (0, c, p / s.nsPerCount) := by
    rw [hraw]
    simp
  refine ⟨code, s', hs, hu, hraw', hns, ?_, ?_⟩
  · intro hcancel hne
    rw [hns, hcancel p s.nsPerCount hne]
  · intro val ε hε hu0 h1 h2
    exact ⟨_, hns, roundtrip_error _ _ _ _ ε hu0 hε h1 h2⟩

/-- Witness of C11, amended, on a default-constructed store (nsPerCount 25/32) with 25 ns set
on (1,2,3), where both float operations are exact: the raw phase is 32, and the phase read
back in nanoseconds is within the single-precision bound (`ε` = 2^-24) of 25. Over the
rationals, where division cancels, the same call reads back as 25 itself. -/
theorem set_ns_readback_witness :
    (∃ (code : Int) (s' : DTTPGParameters Flt),
      (DTTPGParameters.new : DTTPGParameters Flt).set 1 2 3 4 (Flt.finite 25) DTTimeUnits.ns
        = some (code, s') ∧
      s'.get 1 2 3 0 0 DTTimeUnits.counts = some (0, 4, Flt.finite 32) ∧
      ∃ r : Flt, s'.get 1 2 3 0 0 DTTimeUnits.ns = some (0, 4, r) ∧
        |Flt.value r - 25| ≤ (2 * (1 / 16777216) + (1 / 16777216) ^ 2) * |(25 : ℚ)|) ∧
    (∃ (code : Int) (s' : DTTPGParameters ℚ),
      (DTTPGParameters.new : DTTPGParameters ℚ).set 1 2 3 4 25 DTTimeUnits.ns = some (code, s') ∧
      s'.get 1 2 3 0 0 DTTimeUnits.ns = some (0, 4, 25)) := by
  have hq : Flt.finite 25 / (DTTPGParameters.new : DTTPGParameters Flt).nsPerCount
      = Flt.finite 32 := by
    rw [new_nsPerCount_Flt, Flt.finite_div _ _ (by norm_num)]
    norm_num
  have hm : Flt.finite 32 * (DTTPGParameters.new : DTTPGParameters Flt).nsPerCount
      = Flt.finite 25 := by
    rw [new_nsPerCount_Flt, Flt.finite_mul]
    norm_num
  constructor
  · obtain ⟨code, s', hs, _, hraw, _, _, htol⟩ :=
      set_ns_readback (DTTPGParameters.new : DTTPGParameters Flt) Reachable.new 1 2 3 4 0
        (Flt.finite 25) 0
    rw [hq] at hraw
    refine ⟨code, s', hs, hraw, ?_⟩
    have h := htol Flt.value (1 / 16777216) (by norm_num)
      (by rw [new_nsPerCount_Flt]; simp [Flt.value])
      (by rw [hq, new_nsPerCount_Flt]; simp only [Flt.value]; norm_num)
      (by rw [hq, hm, new_nsPerCount_Flt]; simp only [Flt.value]; norm_num)
    simpa [Flt.value] using h
  · obtain ⟨code, s', hs, _, _, _, hexact, _⟩ :=
      set_ns_readback (DTTPGParameters.new : DTTPGParameters ℚ) Reachable.new 1 2 3 4 0 25 0
    exact ⟨code, s', hs, hexact (fun x y hy => div_mul_cancel₀ x hy)
      (by norm_num [DTTPGParameters.new])⟩

/-- C12: in every store reachable from construction by set, clear and copy-assignment, a slot
`ientry` that the index find of `get` or `set` returns satisfies 0 <= ientry < length of the
record list, `dataList[ientry]` is an element of the list, and `get` and `set` complete
without the out-of-range fault. -/
theorem slot_in_bounds {F : Type} [Zero F] [Mul F] [Div F] [IntCast F]
    (s : DTTPGParameters F) (hr : Reachable s) (w st sec : Int) :
    (∀ ientry : Int, s.dBuf.find (chanKey w st sec) = some ientry →
      0 ≤ ientry ∧ ientry < (s.dataList.length : Int) ∧
      ∃ e, vectorAt s.dataList ientry = some e) ∧
    (∀ (nc0 : Int) (ph0 : F) (unit : DTTimeUnits),
      ∃ r, s.get w st sec nc0 ph0 unit = some r) ∧
    (∀ (nc : Int) (ph : F) (unit : DTTimeUnits),
      ∃ r, s.set w st sec nc ph unit = some r) := by
  have h := reachable_consistent hr
  refine ⟨?_, ?_, ?_⟩
  · intro ientry hf
    obtain ⟨h0, hlt⟩ := h.slot_lt _ _ hf
    obtain ⟨i, d, hv, he⟩ := h.entry_of_find ⟨w, st, sec⟩ ientry hf
    subst hv
    exact ⟨h0, hlt, _, by rw [vectorAt_natCast]; exact he⟩
  · intro nc0 ph0 unit
    cases hf : s.dBuf.find (chanKey w st sec) with
    | none => exact ⟨_, get_of_find_none s w st sec nc0 ph0 unit hf⟩
    | some slot =>
      obtain ⟨i, d, hv, he⟩ := h.entry_of_find ⟨w, st, sec⟩ slot hf
      subst hv
      exact ⟨_, get_of_find_some s w st sec nc0 ph0 unit i _ hf he⟩
  · intro nc ph unit
    obtain ⟨code, s', _, hs, _⟩ := set_result s h w st sec nc ph unit
    exact ⟨_, hs⟩

/-- Witness of C12 on the store holding the one entry (1,2,3). -/
theorem slot_in_bounds_witness :
    (∀ ientry : Int, sampleStore.dBuf.find (chanKey 1 2 3) = some ientry →
      0 ≤ ientry ∧ ientry < (sampleStore.dataList.length : Int) ∧
      ∃ e, vectorAt sampleStore.dataList ientry = some e) ∧
    (∀ (nc0 : Int) (ph0 : Flt) (unit : DTTimeUnits),
      ∃ r, sampleStore.get 1 2 3 nc0 ph0 unit = some r) ∧
    (∀ (nc : Int) (ph : Flt) (unit : DTTimeUnits),
      ∃ r, sampleStore.set 1 2 3 nc ph unit = some r) :=
  slot_in_bounds sampleStore sampleStore_reachable 1 2 3

/-- C13: the insert/find contract of the index as the store uses it: on every index, `find` on
a path right after `insert` of that path yields the inserted slot, also when the path was
bound before (a second `insert` on the path replaces the first: last write wins); `find` on
every other path returns what it returned before the `insert`; after `clear` every `find`
returns NotFound. -/
theorem pathIndex_contract (t : DTBufferTree) (path : List Int) (slot : Int) :
    (t.insert path slot).find path = some slot ∧
    (∀ slot' : Int, ((t.insert path slot).insert path slot').find path = some slot') ∧
    (∀ other : List Int, other ≠ path → (t.insert path slot).find other = t.find other) ∧
    (∀ other : List Int, t.clear.find other = none) := by
  refine ⟨find_insert_same path slot t, ?_, ?_, ?_⟩
  · intro slot'
    exact find_insert_same path slot' _
  · intro other hne
    exact find_insert_other path other slot t hne
  · intro other
    exact find_empty other

/-- C14: a store constructed without argument has the one-space version string, a store
constructed with version `v` has version `v`; for both `clock()` is 32, `unit()` is 25/32
(25 and 32 converted and divided in the carrier; the finite value 25/32 in `Flt`), the
record list is empty and `get` on every triple returns a non-zero status with count 0 and
phase 0.0. -/
theorem construction_defaults {F : Type} [Zero F] [Mul F] [Div F] [IntCast F] (v : String) :
    (DTTPGParameters.new : DTTPGParameters F).version = " " ∧
    (DTTPGParameters.newVersion v : DTTPGParameters F).version = v ∧
    (DTTPGParameters.new : DTTPGParameters F).clock = 32 ∧
    (DTTPGParameters.newVersion v : DTTPGParameters F).clock = 32 ∧
    (DTTPGParameters.new : DTTPGParameters F).unit = ((25 : Int) : F) / ((32 : Int) : F) ∧
    (DTTPGParameters.newVersion v : DTTPGParameters F).unit
      = ((25 : Int) : F) / ((32 : Int) : F) ∧
    (DTTPGParameters.new : DTTPGParameters Flt).unit = Flt.finite (25 / 32) ∧
    (DTTPGParameters.new : DTTPGParameters F).dataList = [] ∧
    (DTTPGParameters.newVersion v : DTTPGParameters F).dataList = [] ∧
    (∀ (w st sec nc0 : Int) (ph0 : F) (unit : DTTimeUnits),
      ∃ status : Int,
        (DTTPGParameters.new : DTTPGParameters F).get w st sec nc0 ph0 unit
          = some (status, 0, 0) ∧ status ≠ 0) ∧
    (∀ (w st sec nc0 : Int) (ph0 : F) (unit : DTTimeUnits),
      ∃ status : Int,
        (DTTPGParameters.newVersion v : DTTPGParameters F).get w st sec nc0 ph0 unit
          = some (status, 0, 0) ∧ status ≠ 0) := by
  refine ⟨rfl, rfl, rfl, rfl, rfl, rfl, ?_, rfl, rfl, ?_, ?_⟩
  · show (if (((32 : Int) : ℚ)) = 0 then Flt.nan
      else Flt.finite (((25 : Int) : ℚ) / ((32 : Int) : ℚ))) = Flt.finite (25 / 32)
    norm_num
  · intro w st sec nc0 ph0 unit
    exact ⟨1, get_of_find_none _ w st sec nc0 ph0 unit (find_empty _), by decide⟩
  · intro w st sec nc0 ph0 unit
    exact ⟨1, get_of_find_none _ w st sec nc0 ph0 unit (find_empty _), by decide⟩

/-- C15: self-assignment `S = S` is a no-op: the memory is as before, so the version,
nsPerCount, clockLength and record list of `S` are unchanged and `get` on every triple and
unit returns what it returned before. -/
theorem self_assignment_noop {F : Type} [Zero F] [Mul F] (m : Memory F) (a : Nat)
    (S : DTTPGParameters F) (hS : m[a]? = some S) :
    ∃ (m1 : Memory F) (S1 : DTTPGParameters F),
      m.assign a a = some m1 ∧ m1 = m ∧ m1[a]? = some S1 ∧
      S1.version = S.version ∧ S1.unit = S.unit ∧ S1.clock = S.clock ∧
      S1.dataList = S.dataList ∧ S1.dBuf = S.dBuf ∧
      (∀ (w st sec nc0 : Int) (ph0 : F) (unit : DTTimeUnits),
        S1.get w st sec nc0 ph0 unit = S.get w st sec nc0 ph0 unit) := by
  have hself : S.assign S a a = S := by simp [DTTPGParameters.assign]
  obtain ⟨hlt, hv⟩ := List.getElem?_eq_some_iff.mp hS
  have hm : List.set m a S = m := by
    apply List.ext_getElem?
    intro j
    by_cases hj : a = j
    · subst hj
      simp [List.getElem?_set, hlt, hS]
    · simp [List.getElem?_set, hj]
  refine ⟨m, S, ?_, rfl, hS, rfl, rfl, rfl, rfl, rfl, fun _ _ _ _ _ _ => rfl⟩
  simp [Memory.assign, hS, hself, hm]

/-- Witness of C15: the store holding the one entry (1,2,3), at address 0. -/
theorem self_assignment_noop_witness :
    ∃ (m1 : Memory Flt) (S1 : DTTPGParameters Flt),
      Memory.assign [sampleStore, sampleStore2] 0 0 = some m1 ∧
      m1 = [sampleStore, sampleStore2] ∧ m1[0]? = some S1 ∧
      S1.version = sampleStore.version ∧ S1.unit = sampleStore.unit ∧
      S1.clock = sampleStore.clock ∧
      S1.dataList = sampleStore.dataList ∧ S1.dBuf = sampleStore.dBuf ∧
      (∀ (w st sec nc0 : Int) (ph0 : Flt) (unit : DTTimeUnits),
        S1.get w st sec nc0 ph0 unit = sampleStore.get w st sec nc0 ph0 unit) :=
  self_assignment_noop [sampleStore, sampleStore2] 0 sampleStore rfl

/-! ## Frame of `set` and the units of `get` -/

/-- What `set` leaves alone: the scalars, every entry under another key, and the position and
key of an entry under its own key, whose record it overwrites. -/
theorem set_entries {F : Type} [Div F] (s : DTTPGParameters F) (h : IndexConsistent s)
    (w st sec nc : Int) (ph : F) (unit : DTTimeUnits) :
    ∃ (code : Int) (s' : DTTPGParameters F),
      s.set w st sec nc ph unit = some (code, s') ∧ IndexConsistent s' ∧
      s'.dataVersion = s.dataVersion ∧ s'.clockLength = s.clockLength ∧
      s'.nsPerCount = s.nsPerCount ∧
      (∀ (i : Nat) (e : DTTPGParametersId × DTTPGParametersData F),
        s.dataList[i]? = some e → e.1 ≠ ⟨w, st, sec⟩ → s'.dataList[i]? = some e) ∧
      (∀ (i : Nat) (e : DTTPGParametersId × DTTPGParametersData F),
        s.dataList[i]? = some e → e.1 = ⟨w, st, sec⟩ →
        code = -1 ∧ s'.dataList[i]? = some (⟨w, st, sec⟩,
          ⟨nc, if unit = DTTimeUnits.ns then ph / s.nsPerCount else ph⟩)) ∧
      (s'.keys = s.keys ∨ s'.keys = s.keys ++ [⟨w, st, sec⟩]) := by
  cases hf : s.dBuf.find (chanKey w st sec) with
  | none =>
    have hs := set_of_find_none s w st sec nc ph unit hf
    refine ⟨0, _, hs, set_consistent w st sec nc ph unit 0 h hs, rfl, rfl, rfl, ?_, ?_,
      set_keys w st sec nc ph unit 0 h hs⟩
    · intro i e he _
      have hi : i < s.dataList.length := (List.getElem?_eq_some_iff.mp he).1
      show (s.dataList ++ _)[i]? = some e
      rw [List.getElem?_append_left hi]
      exact he
    · intro i e he hk
      exfalso
      have hki : s.keys[i]? = some e.1 := by rw [keys_getElem?, he]; rfl
      have := h.1 i e.1 hki
      rw [hk, show (⟨w, st, sec⟩ : DTTPGParametersId).path = chanKey w st sec from rfl, hf] at this
      cases this
  | some slot =>
    obtain ⟨i0, d, hv, he0⟩ := h.entry_of_find ⟨w, st, sec⟩ slot hf
    subst hv
    have hi0 : i0 < s.dataList.length := (List.getElem?_eq_some_iff.mp he0).1
    have hs := set_of_find_some s w st sec nc ph unit i0 _ hf he0
    have hk0 : s.keys[i0]? = some ⟨w, st, sec⟩ := by rw [keys_getElem?, he0]; rfl
    refine ⟨-1, _, hs, set_consistent w st sec nc ph unit (-1) h hs, rfl, rfl, rfl, ?_, ?_,
      set_keys w st sec nc ph unit (-1) h hs⟩
    · intro i e he hk
      have hne : i0 ≠ i := by
        intro hii
        subst hii
        rw [he0] at he
        exact hk (by rw [← Option.some.inj he])
      show (s.dataList.set i0 _)[i]? = some e
      rw [List.getElem?_set_ne hne]
      exact he
    · intro i e he hk
      have hki : s.keys[i]? = some e.1 := by rw [keys_getElem?, he]; rfl
      have hii : i = i0 := h.injective i i0 e.1 ⟨w, st, sec⟩ hki hk0 (by rw [hk])
      subst hii
      refine ⟨rfl, ?_⟩
      show (s.dataList.set i _)[i]? = _
      simp [List.getElem?_set, hi0]

/-- Two consistent stores with the same unit scale answer `get` on a key alike when the
entries under that key are the same. -/
theorem get_eq_of_entries {F : Type} [Zero F] [Mul F] (a b : DTTPGParameters F)
    (ha : IndexConsistent a) (hb : IndexConsistent b) (hu : b.nsPerCount = a.nsPerCount)
    (w st sec : Int)
    (hfwd : ∀ (i : Nat) (e : DTTPGParametersId × DTTPGParametersData F),
      a.dataList[i]? = some e → e.1 = ⟨w, st, sec⟩ → b.dataList[i]? = some e)
    (hback : (⟨w, st, sec⟩ : DTTPGParametersId) ∈ b.keys →
      (⟨w, st, sec⟩ : DTTPGParametersId) ∈ a.keys)
    (nc0 : Int) (ph0 : F) (unit : DTTimeUnits) :
    b.get w st sec nc0 ph0 unit = a.get w st sec nc0 ph0 unit := by
  cases hf : a.dBuf.find (chanKey w st sec) with
  | none =>
    have hnot : (⟨w, st, sec⟩ : DTTPGParametersId) ∉ a.keys := by
      intro hmem
      obtain ⟨i, hi⟩ := List.mem_iff_getElem?.mp hmem
      have := ha.1 i _ hi
      rw [show (⟨w, st, sec⟩ : DTTPGParametersId).path = chanKey w st sec from rfl, hf] at this
      cases this
    rw [get_of_find_none a w st sec nc0 ph0 unit hf,
      get_of_not_mem b hb w st sec (fun hm => hnot (hback hm)) nc0 ph0 unit]
  | some slot =>
    obtain ⟨i, d, hv, he⟩ := ha.entry_of_find ⟨w, st, sec⟩ slot hf
    subst hv
    have hgb := get_of_entry b hb i (⟨w, st, sec⟩, d) (hfwd i _ he rfl) nc0 ph0 unit
    have hga := get_of_entry a ha i (⟨w, st, sec⟩, d) he nc0 ph0 unit
    simp only at hga hgb
    rw [hga, hgb, hu]

/-- C16: on every reachable store `set` on a triple `k` touches only that key: `get` on every
other triple returns the same status, count and phase in either unit as before; every
entry of the record list under another key keeps its position and contents; an entry under
`k` itself (the updating case, code -1) keeps its position and key; and the version,
clockLength and nsPerCount are unchanged. -/
theorem set_frame {F : Type} [Zero F] [Mul F] [Div F] [IntCast F]
    (s : DTTPGParameters F) (hr : Reachable s) (w st sec nc : Int) (ph : F)
    (unit : DTTimeUnits) :
    ∃ (code : Int) (s' : DTTPGParameters F),
      s.set w st sec nc ph unit = some (code, s') ∧
      (∀ (w' st' sec' : Int),
        ({ wheelId := w', stationId := st', sectorId := sec' } : DTTPGParametersId)
          ≠ { wheelId := w, stationId := st, sectorId := sec } →
        ∀ (nc0 : Int) (ph0 : F) (unit' : DTTimeUnits),
          s'.get w' st' sec' nc0 ph0 unit' = s.get w' st' sec' nc0 ph0 unit') ∧
      (∀ (i : Nat) (e : DTTPGParametersId × DTTPGParametersData F),
        s.dataList[i]? = some e → e.1 ≠ ⟨w, st, sec⟩ → s'.dataList[i]? = some e) ∧
      (∀ (i : Nat) (e : DTTPGParametersId × DTTPGParametersData F),
        s.dataList[i]? = some e → e.1 = ⟨w, st, sec⟩ →
        code = -1 ∧ ∃ d, s'.dataList[i]? = some (⟨w, st, sec⟩, d)) ∧
      s'.version = s.version ∧ s'.clock = s.clock ∧ s'.unit = s.unit := by
  have h := reachable_consistent hr
  obtain ⟨code, s', hs, hc', hver, hclk, hu, hother, hown, hkeys⟩ :=
    set_entries s h w st sec nc ph unit
  refine ⟨code, s', hs, ?_, hother, ?_, hver, hclk, hu⟩
  · intro w' st' sec' hne nc0 ph0 unit'
    apply get_eq_of_entries s s' h hc' hu w' st' sec'
    · intro i e he hk
      exact hother i e he (by rw [hk]; exact hne)
    · intro hmem
      rcases hkeys with hk | hk
      · rw [hk] at hmem
        exact hmem
      · rw [hk] at hmem
        rcases List.mem_append.mp hmem with hm | hm
        · exact hm
        · exact absurd (List.mem_singleton.mp hm) hne
  · intro i e he hk
    obtain ⟨hcode, he'⟩ := hown i e he hk
    exact ⟨hcode, _, he'⟩

/-- Witness of C16 on the store holding the one entry (1,2,3), for a `set` on that key. -/
theorem set_frame_witness :
    ∃ (code : Int) (s' : DTTPGParameters Flt),
      sampleStore.set 1 2 3 6 (Flt.finite 8) DTTimeUnits.counts = some (code, s') ∧
      (∀ (w' st' sec' : Int),
        ({ wheelId := w', stationId := st', sectorId := sec' } : DTTPGParametersId)
          ≠ { wheelId := 1, stationId := 2, sectorId := 3 } →
        ∀ (nc0 : Int) (ph0 : Flt) (unit' : DTTimeUnits),
          s'.get w' st' sec' nc0 ph0 unit' = sampleStore.get w' st' sec' nc0 ph0 unit') ∧
      (∀ (i : Nat) (e : DTTPGParametersId × DTTPGParametersData Flt),
        sampleStore.dataList[i]? = some e → e.1 ≠ ⟨1, 2, 3⟩ → s'.dataList[i]? = some e) ∧
      (∀ (i : Nat) (e : DTTPGParametersId × DTTPGParametersData Flt),
        sampleStore.dataList[i]? = some e → e.1 = ⟨1, 2, 3⟩ →
        code = -1 ∧ ∃ d, s'.dataList[i]? = some (⟨1, 2, 3⟩, d)) ∧
      s'.version = sampleStore.version ∧ s'.clock = sampleStore.clock ∧
      s'.unit = sampleStore.unit :=
  set_frame sampleStore sampleStore_reachable 1 2 3 6 (Flt.finite 8) DTTimeUnits.counts

/-- C17: on every reachable store and for every triple, `get` in nanoseconds and `get` in raw
counts return the same status and the same count, on a hit (status 0) the nanosecond phase
is the raw phase times nsPerCount, and on a miss both phases are 0.0; `get` is a const
member, a function of the store that yields no store. -/
theorem get_unit_relation {F : Type} [Zero F] [Mul F] [Div F] [IntCast F]
    (s : DTTPGParameters F) (hr : Reachable s) (w st sec nc0 nc1 : Int) (ph0 ph1 : F) :
    ∃ (status c : Int) (praw pns : F),
      s.get w st sec nc0 ph0 DTTimeUnits.counts = some (status, c, praw) ∧
      s.get w st sec nc1 ph1 DTTimeUnits.ns = some (status, c, pns) ∧
      (status = 0 → pns = praw * s.nsPerCount) ∧
      (status ≠ 0 → praw = 0 ∧ pns = 0) := by
  have h := reachable_consistent hr
  cases hf : s.dBuf.find (chanKey w st sec) with
  | none =>
    refine ⟨1, 0, 0, 0, get_of_find_none s w st sec nc0 ph0 _ hf,
      get_of_find_none s w st sec nc1 ph1 _ hf, ?_, fun _ => ⟨rfl, rfl⟩⟩
    intro h1
    exact absurd h1 (by decide)
  | some slot =>
    obtain ⟨i, d, hv, he⟩ := h.entry_of_find ⟨w, st, sec⟩ slot hf
    subst hv
    have hraw := get_of_find_some s w st sec nc0 ph0 DTTimeUnits.counts i _ hf he
    have hns := get_of_find_some s w st sec nc1 ph1 DTTimeUnits.ns i _ hf he
    refine ⟨0, d.nClock, d.tPhase, d.tPhase * s.nsPerCount, ?_, ?_, fun _ => rfl, ?_⟩
    · rw [hraw]
      simp
    · rw [hns]
      simp
    · intro h0
      exact absurd rfl h0

/-- Witness of C17 on the store holding the one entry (1,2,3). -/
theorem get_unit_relation_witness :
    ∃ (status c : Int) (praw pns : Flt),
      sampleStore.get 1 2 3 7 Flt.nan DTTimeUnits.counts = some (status, c, praw) ∧
      sampleStore.get 1 2 3 8 Flt.nan DTTimeUnits.ns = some (status, c, pns) ∧
      (status = 0 → pns = praw * sampleStore.nsPerCount) ∧
      (status ≠ 0 → praw = 0 ∧ pns = 0) :=
  get_unit_relation sampleStore sampleStore_reachable 1 2 3 7 8 Flt.nan Flt.nan

theorem IndexConsistent.keys_nodup {F : Type} {s : DTTPGParameters F}
    (h : IndexConsistent s) : s.keys.Nodup := by
  rw [List.nodup_iff_getElem?_ne_getElem?]
  intro i j hij hj heq
  have hjk : s.keys[j]? = some s.keys[j] := List.getElem?_eq_getElem hj
  have hik : s.keys[i]? = some s.keys[j] := by rw [heq, hjk]
  have := h.injective i j _ _ hik hjk rfl
  omega

/-- C19: in every store reachable from a constructed one by set, clear and copy-assignment
between reachable stores, no two positions of the record list hold the same (wheel,
station, sector) key: two positions holding equal keys are one position, and the list of
keys has no duplicate. -/
theorem key_uniqueness {F : Type} [Div F] [IntCast F] (s : DTTPGParameters F)
    (hr : Reachable s) :
    (∀ (i j : Nat) (e e' : DTTPGParametersId × DTTPGParametersData F),
      s.dataList[i]? = some e → s.dataList[j]? = some e' → e.1 = e'.1 → i = j) ∧
    (s.dataList.map (fun e => e.1)).Nodup := by
  have h := reachable_consistent hr
  refine ⟨?_, h.keys_nodup⟩
  intro i j e e' hi hj hk
  have hki : s.keys[i]? = some e.1 := by rw [keys_getElem?, hi]; rfl
  have hkj : s.keys[j]? = some e'.1 := by rw [keys_getElem?, hj]; rfl
  exact h.injective i j e.1 e'.1 hki hkj (by rw [hk])

theorem twoKeyStore_reachable : Reachable twoKeyStore := by
  have h2 : Reachable
      ({ sampleStore with
          dataList := sampleStore.dataList ++
            [(({ wheelId := 3, stationId := 2, sectorId := 1 } : DTTPGParametersId),
              ({ nClock := 6, tPhase := Flt.finite 7 } : DTTPGParametersData Flt))]
          dBuf := sampleStore.dBuf.insert (chanKey 3 2 1) 1 } : DTTPGParameters Flt) :=
    Reachable.set 3 2 1 6 (Flt.finite 7) DTTimeUnits.counts 0 sampleStore_reachable rfl
  exact Reachable.set 1 2 3 8 (Flt.finite 9) DTTimeUnits.counts (-1) h2 rfl

/-- Witness of C19 on a store with two entries, reached by a `set` on (1,2,3), a `set` on
(3,2,1) and a second `set` on (1,2,3): the repeated key did not get a second position. -/
theorem key_uniqueness_witness :
    Reachable twoKeyStore ∧ twoKeyStore.dataList.length = 2 ∧
    ((∀ (i j : Nat) (e e' : DTTPGParametersId × DTTPGParametersData Flt),
      twoKeyStore.dataList[i]? = some e → twoKeyStore.dataList[j]? = some e' →
      e.1 = e'.1 → i = j) ∧
    (twoKeyStore.dataList.map (fun e => e.1)).Nodup) :=
  ⟨twoKeyStore_reachable, rfl, key_uniqueness twoKeyStore twoKeyStore_reachable⟩

/-! ## Rebuild on an arbitrary record list -/

theorem initializeInserts_length {F : Type}
    (l : List (DTTPGParametersId × DTTPGParametersData F)) (n : Nat) :
    (initializeInserts l n).length = l.length - n := by
  generalize hm : l.length - n = m
  induction m generalizing n with
  | zero =>
    rw [initializeInserts]
    have hlen : ¬ n < l.length := by omega
    simp [hlen]
  | succ m ih =>
    rw [initializeInserts]
    have hlt : n < l.length := by omega
    simp only [hlt, dite_true, List.length_cons]
    rw [ih (n + 1) (by omega)]

theorem initializeLoop_eq_foldl {F : Type}
    (l : List (DTTPGParametersId × DTTPGParametersData F)) (n : Nat) (t : DTBufferTree) :
    initializeLoop l n t
      = (initializeInserts l n).foldl (fun acc c => acc.insert c.1 c.2) t := by
  generalize hm : l.length - n = m
  induction m generalizing n t with
  | zero =>
    have hlen : ¬ n < l.length := by omega
    rw [initializeLoop, initializeInserts]
    simp [hlen]
  | succ m ih =>
    have hlt : n < l.length := by omega
    rw [initializeLoop, initializeInserts]
    simp only [hlt, dite_true, List.foldl_cons]
    exact ih (n + 1) _ (by omega)

/-- A list with an element satisfying `q` has a last such element. -/
theorem exists_last_position {α : Type} (q : α → Prop) (l : List α)
    (h : ∃ (i : Nat) (x : α), l[i]? = some x ∧ q x) :
    ∃ (i : Nat) (x : α), l[i]? = some x ∧ q x ∧
      ∀ (j : Nat) (y : α), i < j → l[j]? = some y → ¬ q y := by
  induction l with
  | nil =>
    obtain ⟨i, x, hx, _⟩ := h
    simp at hx
  | cons a t ih =>
    by_cases ht : ∃ (i : Nat) (x : α), t[i]? = some x ∧ q x
    · obtain ⟨i, x, hx, hq, hlast⟩ := ih ht
      refine ⟨i + 1, x, by simpa using hx, hq, ?_⟩
      intro j y hij hy
      cases j with
      | zero => omega
      | succ j' => exact hlast j' y (by omega) (by simpa using hy)
    · obtain ⟨i, x, hx, hq⟩ := h
      cases i with
      | zero =>
        refine ⟨0, x, hx, hq, ?_⟩
        intro j y hij hy hqy
        cases j with
        | zero => omega
        | succ j' => exact ht ⟨j', y, by simpa using hy, hqy⟩
      | succ i' => exact absurd ⟨i', x, by simpa using hx, hq⟩ ht

/-- C20: on every record list, repeated keys included, and whatever the index held before,
the loop of `initialize` makes exactly list-length calls of `insert` and ends; afterwards
`find` on the path of `(w,s,t)` is NotFound exactly when no entry of the list has that key,
and otherwise is the position of the last entry with that key; and every path the index
resolves is the key path of the list entry at the slot it yields, so no earlier
association is left. -/
theorem initialize_rebuild {F : Type} (s : DTTPGParameters F) :
    (initializeInserts s.dataList 0).length = s.dataList.length ∧
    s.initializeBuf.dBuf
      = (initializeInserts s.dataList 0).foldl (fun acc c => acc.insert c.1 c.2)
          s.dBuf.clear ∧
    s.initializeBuf.dataList = s.dataList ∧
    (∀ (w st sec : Int),
      s.initializeBuf.dBuf.find (chanKey w st sec) = none ↔
        ∀ e ∈ s.dataList, e.1 ≠ ⟨w, st, sec⟩) ∧
    (∀ (w st sec : Int) (slot : Int),
      s.initializeBuf.dBuf.find (chanKey w st sec) = some slot ↔
        ∃ (i : Nat) (e : DTTPGParametersId × DTTPGParametersData F),
          slot = (i : Int) ∧ s.dataList[i]? = some e ∧ e.1 = ⟨w, st, sec⟩ ∧
          ∀ (j : Nat) (e' : DTTPGParametersId × DTTPGParametersData F),
            i < j → s.dataList[j]? = some e' → e'.1 ≠ ⟨w, st, sec⟩) ∧
    (∀ (path : List Int) (slot : Int), s.initializeBuf.dBuf.find path = some slot →
      ∃ (i : Nat) (e : DTTPGParametersId × DTTPGParametersData F),
        slot = (i : Int) ∧ s.dataList[i]? = some e ∧ e.1.path = path) := by
  have hspec := initializeLoop_spec s.dataList 0 s.dBuf.clear (Nat.zero_le _)
    (by
      intro q v hq
      rw [DTBufferTree.clear, find_empty] at hq
      cases hq)
    (by
      intro i k hi
      omega)
  have hentry : ∀ (i : Nat) (k : DTTPGParametersId),
      (s.dataList.map (fun e => e.1))[i]? = some k ↔
        ∃ e, s.dataList[i]? = some e ∧ e.1 = k := by
    intro i k
    simp [List.getElem?_map]
  -- the position of the last entry with the key is what `find` returns
  have hlast : ∀ (w st sec : Int) (i : Nat) (e : DTTPGParametersId × DTTPGParametersData F),
      s.dataList[i]? = some e → e.1 = ⟨w, st, sec⟩ →
      (∀ (j : Nat) (e' : DTTPGParametersId × DTTPGParametersData F),
        i < j → s.dataList[j]? = some e' → e'.1 ≠ ⟨w, st, sec⟩) →
      s.initializeBuf.dBuf.find (chanKey w st sec) = some (i : Int) := by
    intro w st sec i e he hk hl
    refine hspec.2 i ⟨w, st, sec⟩ ((hentry i _).2 ⟨e, he, hk⟩) ?_
    intro j k' hij hk' hp
    obtain ⟨e', he', hek'⟩ := (hentry j k').1 hk'
    exact hl j e' hij he' (by rw [hek']; exact path_injective _ _ hp)
  have hres : ∀ (path : List Int) (slot : Int), s.initializeBuf.dBuf.find path = some slot →
      ∃ (i : Nat) (e : DTTPGParametersId × DTTPGParametersData F),
        slot = (i : Int) ∧ s.dataList[i]? = some e ∧ e.1.path = path := by
    intro path slot hf
    obtain ⟨i, k, hv, hk, hp⟩ := hspec.1 path slot hf
    obtain ⟨e, he, hek⟩ := (hentry i k).1 hk
    exact ⟨i, e, hv, he, by rw [hek]; exact hp⟩
  have hsome : ∀ (w st sec : Int) (slot : Int),
      s.initializeBuf.dBuf.find (chanKey w st sec) = some slot →
        ∃ (i : Nat) (e : DTTPGParametersId × DTTPGParametersData F),
          slot = (i : Int) ∧ s.dataList[i]? = some e ∧ e.1 = ⟨w, st, sec⟩ ∧
          ∀ (j : Nat) (e' : DTTPGParametersId × DTTPGParametersData F),
            i < j → s.dataList[j]? = some e' → e'.1 ≠ ⟨w, st, sec⟩ := by
    intro w st sec slot hf
    obtain ⟨i0, e0, _, he0, hp0⟩ := hres _ slot hf
    have hk0 : e0.1 = ⟨w, st, sec⟩ := path_injective _ _ hp0
    obtain ⟨i, e, he, hk, hl⟩ := exists_last_position
      (fun x : DTTPGParametersId × DTTPGParametersData F => x.1 = ⟨w, st, sec⟩)
      s.dataList ⟨i0, e0, he0, hk0⟩
    have hfi := hlast w st sec i e he hk hl
    rw [hf] at hfi
    exact ⟨i, e, Option.some.inj hfi, he, hk, hl⟩
  refine ⟨by rw [initializeInserts_length]; rfl, initializeLoop_eq_foldl _ _ _, rfl, ?_, ?_,
    hres⟩
  · intro w st sec
    constructor
    · intro hnone e he hk
      obtain ⟨i0, hi0⟩ := List.mem_iff_getElem?.mp he
      obtain ⟨i, e1, he1, hk1, hl⟩ := exists_last_position
        (fun x : DTTPGParametersId × DTTPGParametersData F => x.1 = ⟨w, st, sec⟩)
        s.dataList ⟨i0, e, hi0, hk⟩
      have := hlast w st sec i e1 he1 hk1 hl
      rw [hnone] at this
      cases this
    · intro hall
      cases hf : s.initializeBuf.dBuf.find (chanKey w st sec) with
      | none => rfl
      | some slot =>
        obtain ⟨i, e, _, he, hk, _⟩ := hsome w st sec slot hf
        exact absurd hk (hall e (List.getElem?_mem he))
  · intro w st sec slot
    constructor
    · exact hsome w st sec slot
    · rintro ⟨i, e, hv, he, hk, hl⟩
      rw [hv]
      exact hlast w st sec i e he hk hl

/-! ## Iteration order -/

/-- The two cases of `set` on a consistent store: the key is new and the entry is appended,
or the key is at a position and the entry there is replaced. -/
theorem set_cases {F : Type} [Div F] (s : DTTPGParameters F) (h : IndexConsistent s)
    (c : SetCall F) :
    ∃ (code : Int) (s' : DTTPGParameters F),
      s.set c.wheelId c.stationId c.sectorId c.nc c.ph c.unit = some (code, s') ∧
      IndexConsistent s' ∧ s'.nsPerCount = s.nsPerCount ∧
      ((c.key ∉ s.keys ∧ s'.dataList = s.dataList ++ [(c.key, c.stored s.nsPerCount)]) ∨
        (∃ (i : Nat) (d : DTTPGParametersData F), s.dataList[i]? = some (c.key, d) ∧
          s'.dataList = s.dataList.set i (c.key, c.stored s.nsPerCount))) := by
  cases hf : s.dBuf.find (chanKey c.wheelId c.stationId c.sectorId) with
  | none =>
    have hs := set_of_find_none s c.wheelId c.stationId c.sectorId c.nc c.ph c.unit hf
    refine ⟨0, _, hs, set_consistent _ _ _ _ _ _ 0 h hs, rfl, Or.inl ⟨?_, rfl⟩⟩
    intro hmem
    obtain ⟨i, hi⟩ := List.mem_iff_getElem?.mp hmem
    have := h.1 i _ hi
    rw [show c.key.path = chanKey c.wheelId c.stationId c.sectorId from rfl, hf] at this
    cases this
  | some slot =>
    obtain ⟨i, d, hv, he⟩ := h.entry_of_find c.key slot hf
    subst hv
    have hs := set_of_find_some s c.wheelId c.stationId c.sectorId c.nc c.ph c.unit i _ hf he
    exact ⟨-1, _, hs, set_consistent _ _ _ _ _ _ (-1) h hs, rfl, Or.inr ⟨i, d, he, rfl⟩⟩

theorem setCalls_append {F : Type} [Div F] (s : DTTPGParameters F) (P Q : List (SetCall F)) :
    setCalls s (P ++ Q) = (setCalls s P).bind (fun s1 => setCalls s1 Q) := by
  induction P generalizing s with
  | nil => rfl
  | cons c rest ih =>
    simp only [List.cons_append, setCalls]
    cases hs : s.set c.wheelId c.stationId c.sectorId c.nc c.ph c.unit with
    | none => rfl
    | some r => exact ih r.2

theorem firstInsertionOrder_nil {F : Type} [Div F] (ns : F) :
    FirstInsertionOrder ns ([] : List (SetCall F)) [] := by
  refine ⟨by simp, ?_, ?_⟩
  · intro i j k1 k2 h1
    simp at h1
  · intro i e h1
    simp at h1

theorem firstInsertionOrder_later {F : Type} [Div F] (P : List (SetCall F)) (c : SetCall F)
    (k : DTTPGParametersId) (hk : c.key ≠ k) (j : Nat) (c0 : SetCall F)
    (hj : P[j]? = some c0)
    (hl : ∀ (j' : Nat) (c' : SetCall F), j < j' → P[j']? = some c' → c'.key ≠ k) :
    (P ++ [c])[j]? = some c0 ∧
    ∀ (j' : Nat) (c' : SetCall F), j < j' → (P ++ [c])[j']? = some c' → c'.key ≠ k := by
  have hjlt : j < P.length := (List.getElem?_eq_some_iff.mp hj).1
  refine ⟨by rw [List.getElem?_append_left hjlt]; exact hj, ?_⟩
  intro j' c' hjj hc'
  by_cases hlt : j' < P.length
  · rw [List.getElem?_append_left hlt] at hc'
    exact hl j' c' hjj hc'
  · rw [List.getElem?_append_right (by omega)] at hc'
    have hz : j' - P.length = 0 := by
      by_contra hne
      have : ([c] : List (SetCall F))[j' - P.length]? = none := by
        apply List.getElem?_eq_none
        simp
        omega
      rw [this] at hc'
      cases hc'
    rw [hz] at hc'
    simp at hc'
    rw [← hc']
    exact hk

theorem firstInsertionOrder_last {F : Type} [Div F] (P : List (SetCall F)) (c : SetCall F) :
    (P ++ [c])[P.length]? = some c ∧
    ∀ (j' : Nat) (c' : SetCall F), P.length < j' → (P ++ [c])[j']? = some c' →
      c'.key ≠ c.key := by
  refine ⟨by simp, ?_⟩
  intro j' c' hjj hc'
  have : (P ++ [c])[j']? = none := by
    apply List.getElem?_eq_none
    simp
    omega
  rw [this] at hc'
  cases hc'

theorem firstInsertionOrder_insert {F : Type} [Div F] (ns : F) (P : List (SetCall F))
    (L : List (DTTPGParametersId × DTTPGParametersData F)) (c : SetCall F)
    (h : FirstInsertionOrder ns P L) (hnew : c.key ∉ L.map (fun e => e.1)) :
    FirstInsertionOrder ns (P ++ [c]) (L ++ [(c.key, c.stored ns)]) := by
  obtain ⟨hmem, hord, hdat⟩ := h
  have hnewP : c.key ∉ P.map SetCall.key := fun hm => hnew ((hmem _).2 hm)
  refine ⟨?_, ?_, ?_⟩
  · intro k
    simp only [List.map_append, List.map_cons, List.map_nil, List.mem_append,
      List.mem_singleton, hmem k]
  · intro i j k1 k2 h1 h2 hij
    simp only [List.map_append, List.map_cons, List.map_nil] at h1 h2 ⊢
    have hjlt := (List.getElem?_eq_some_iff.mp h2).1
    simp only [List.length_append, List.length_map, List.length_singleton] at hjlt
    have hilt : i < (L.map (fun e => e.1)).length := by
      simp only [List.length_map]
      omega
    rw [List.getElem?_append_left hilt] at h1
    have hk1 : k1 ∈ P.map SetCall.key := (hmem k1).1 (List.getElem?_mem h1)
    rw [List.indexOf_append_of_mem hk1]
    by_cases hj : j < (L.map (fun e => e.1)).length
    · rw [List.getElem?_append_left hj] at h2
      have hk2 : k2 ∈ P.map SetCall.key := (hmem k2).1 (List.getElem?_mem h2)
      rw [List.indexOf_append_of_mem hk2]
      exact hord i j k1 k2 h1 h2 hij
    · simp only [List.length_map] at hj
      have hje : j = L.length := by omega
      subst hje
      rw [List.getElem?_append_right (by simp)] at h2
      simp at h2
      subst h2
      rw [List.indexOf_append_of_not_mem hnewP, List.indexOf_cons_self]
      have := List.indexOf_lt_length.2 hk1
      omega
  · intro i e he
    by_cases hi : i < L.length
    · rw [List.getElem?_append_left hi] at he
      obtain ⟨j, c0, hj, hk, hs, hl⟩ := hdat i e he
      have hne : c.key ≠ e.1 := by
        intro heq
        apply hnew
        rw [heq]
        exact List.mem_map_of_mem _ (List.getElem?_mem he)
      obtain ⟨hj', hl'⟩ := firstInsertionOrder_later P c e.1 hne j c0 hj hl
      exact ⟨j, c0, hj', hk, hs, hl'⟩
    · have hie : i = L.length := by
        have := (List.getElem?_eq_some_iff.mp he).1
        simp at this
        omega
      subst hie
      rw [List.getElem?_append_right (by simp)] at he
      simp at he
      subst he
      obtain ⟨hj', hl'⟩ := firstInsertionOrder_last P c
      exact ⟨P.length, c, hj', rfl, rfl, hl'⟩

theorem firstInsertionOrder_update {F : Type} [Div F] (ns : F) (P : List (SetCall F))
    (L : List (DTTPGParametersId × DTTPGParametersData F)) (c : SetCall F)
    (h : FirstInsertionOrder ns P L) (i0 : Nat) (d : DTTPGParametersData F)
    (h0 : L[i0]? = some (c.key, d))
    (hinj : ∀ (i j : Nat) (e e' : DTTPGParametersId × DTTPGParametersData F),
      L[i]? = some e → L[j]? = some e' → e.1 = e'.1 → i = j) :
    FirstInsertionOrder ns (P ++ [c]) (L.set i0 (c.key, c.stored ns)) := by
  obtain ⟨hmem, hord, hdat⟩ := h
  have hkeys := keys_set_same L i0 c.key d (c.stored ns) h0
  have hcL : c.key ∈ L.map (fun e => e.1) :=
    List.mem_map_of_mem (fun e => e.1) (List.getElem?_mem h0)
  have hcP : c.key ∈ P.map SetCall.key := (hmem _).1 hcL
  have hi0 : i0 < L.length := (List.getElem?_eq_some_iff.mp h0).1
  refine ⟨?_, ?_, ?_⟩
  · intro k
    rw [hkeys, hmem k]
    simp only [List.map_append, List.map_cons, List.map_nil, List.mem_append,
      List.mem_singleton]
    constructor
    · exact Or.inl
    · rintro (hk | hk)
      · exact hk
      · rw [hk]
        exact hcP
  · intro i j k1 k2 h1 h2 hij
    rw [hkeys] at h1 h2
    have hk1 : k1 ∈ P.map SetCall.key := (hmem k1).1 (List.getElem?_mem h1)
    have hk2 : k2 ∈ P.map SetCall.key := (hmem k2).1 (List.getElem?_mem h2)
    simp only [List.map_append]
    rw [List.indexOf_append_of_mem hk1, List.indexOf_append_of_mem hk2]
    exact hord i j k1 k2 h1 h2 hij
  · intro i e he
    by_cases hii : i0 = i
    · subst hii
      rw [List.getElem?_set_self hi0] at he
      have he' := Option.some.inj he
      subst he'
      obtain ⟨hj', hl'⟩ := firstInsertionOrder_last P c
      exact ⟨P.length, c, hj', rfl, rfl, hl'⟩
    · rw [List.getElem?_set_ne hii] at he
      obtain ⟨j, c0, hj, hk, hs, hl⟩ := hdat i e he
      have hne : c.key ≠ e.1 := by
        intro heq
        exact hii (hinj i0 i _ _ h0 he heq)
      obtain ⟨hj', hl'⟩ := firstInsertionOrder_later P c e.1 hne j c0 hj hl
      exact ⟨j, c0, hj', hk, hs, hl'⟩

/-- Any sequence of `set` calls on a consistent store with an empty record list runs to the
end and leaves the record list in first-insertion order. -/
theorem setCalls_order {F : Type} [Div F] (s0 : DTTPGParameters F) (h0 : IndexConsistent s0)
    (hl0 : s0.dataList = []) (calls : List (SetCall F)) :
    ∃ s' : DTTPGParameters F, setCalls s0 calls = some s' ∧ IndexConsistent s' ∧
      s'.nsPerCount = s0.nsPerCount ∧
      FirstInsertionOrder s0.nsPerCount calls s'.dataList := by
  induction calls using List.reverseRecOn with
  | nil =>
    refine ⟨s0, rfl, h0, rfl, ?_⟩
    rw [hl0]
    exact firstInsertionOrder_nil _
  | append_singleton P c ih =>
    obtain ⟨s1, hrun, hc1, hu1, hfio⟩ := ih
    obtain ⟨code, s', hs, hc', hu', hcase⟩ := set_cases s1 hc1 c
    refine ⟨s', ?_, hc', by rw [hu', hu1], ?_⟩
    · rw [setCalls_append, hrun]
      simp [setCalls, hs]
    · rcases hcase with ⟨hnew, hl⟩ | ⟨i, d, he, hl⟩
      · rw [hl, hu1]
        exact firstInsertionOrder_insert _ P _ c hfio hnew
      · rw [hl, hu1]
        apply firstInsertionOrder_update _ P _ c hfio i d he
        intro i j e e' hi hj hk
        have hki : s1.keys[i]? = some e.1 := by rw [keys_getElem?, hi]; rfl
        have hkj : s1.keys[j]? = some e'.1 := by rw [keys_getElem?, hj]; rfl
        exact hc1.injective i j e.1 e'.1 hki hkj (by rw [hk])

/-- C18: for every sequence of `set` calls applied to a reachable store with an empty record
list (a fresh or a cleared one), the sequence from `begin()` to `end()` lists exactly the
triples that were set, each once, a triple before another exactly when its first `set`
call came first, and each with the count and raw phase of the last `set` call on it. -/
theorem iteration_first_insertion_order {F : Type} [Div F] [IntCast F]
    (s0 : DTTPGParameters F) (hr : Reachable s0) (hl0 : s0.dataList = [])
    (calls : List (SetCall F)) :
    ∃ s' : DTTPGParameters F, setCalls s0 calls = some s' ∧
      (s'.beginToEnd.map (fun e => e.1)).Nodup ∧
      (∀ k : DTTPGParametersId,
        k ∈ s'.beginToEnd.map (fun e => e.1) ↔ k ∈ calls.map SetCall.key) ∧
      (∀ (i j : Nat) (k1 k2 : DTTPGParametersId),
        (s'.beginToEnd.map (fun e => e.1))[i]? = some k1 →
        (s'.beginToEnd.map (fun e => e.1))[j]? = some k2 →
        (i < j ↔
          List.indexOf k1 (calls.map SetCall.key) < List.indexOf k2 (calls.map SetCall.key))) ∧
      (∀ (i : Nat) (e : DTTPGParametersId × DTTPGParametersData F),
        s'.beginToEnd[i]? = some e →
        ∃ (j : Nat) (c : SetCall F), calls[j]? = some c ∧ c.key = e.1 ∧
          e.2 = c.stored s0.nsPerCount ∧
          ∀ (j' : Nat) (c' : SetCall F), j < j' → calls[j']? = some c' → c'.key ≠ e.1) := by
  obtain ⟨s', hrun, hc', _, hmem, hord, hdat⟩ :=
    setCalls_order s0 (reachable_consistent hr) hl0 calls
  refine ⟨s', hrun, hc'.keys_nodup, hmem, ?_, hdat⟩
  intro i j k1 k2 h1 h2
  constructor
  · exact hord i j k1 k2 h1 h2
  · intro hlt
    by_contra hij
    rcases Nat.lt_or_ge j i with hji | hji
    · have := hord j i k2 k1 h2 h1 hji
      omega
    · have hije : i = j := by omega
      subst hije
      have hk : k1 = k2 := by
        have hh : (s'.beginToEnd.map (fun e => e.1))[i]? = some k2 := h2
        rw [h1] at hh
        exact Option.some.inj hh
      subst hk
      omega

/-- Witness of C18: three calls on a default-constructed store, the third on the key of the
first. -/
theorem iteration_first_insertion_order_witness :
    ∃ s' : DTTPGParameters Flt,
      setCalls DTTPGParameters.new
        [⟨1, 2, 3, 4, Flt.finite 5, DTTimeUnits.counts⟩, ⟨3, 2, 1, 6, Flt.finite 7, DTTimeUnits.ns⟩,
          ⟨1, 2, 3, 8, Flt.finite 9, DTTimeUnits.counts⟩] = some s' ∧
      (s'.beginToEnd.map (fun e => e.1)).Nodup ∧
      (∀ k : DTTPGParametersId, k ∈ s'.beginToEnd.map (fun e => e.1) ↔
        k ∈ ([⟨1, 2, 3, 4, Flt.finite 5, DTTimeUnits.counts⟩,
          ⟨3, 2, 1, 6, Flt.finite 7, DTTimeUnits.ns⟩,
          ⟨1, 2, 3, 8, Flt.finite 9, DTTimeUnits.counts⟩] : List (SetCall Flt)).map
            SetCall.key) :=
  let ⟨s', hrun, hnd, hmem, _⟩ :=
    iteration_first_insertion_order (DTTPGParameters.new : DTTPGParameters Flt) Reachable.new rfl
      [⟨1, 2, 3, 4, Flt.finite 5, DTTimeUnits.counts⟩, ⟨3, 2, 1, 6, Flt.finite 7, DTTimeUnits.ns⟩,
        ⟨1, 2, 3, 8, Flt.finite 9, DTTimeUnits.counts⟩]
  ⟨s', hrun, hnd, hmem⟩
